import Mathlib

/-!
A 4×4 sliding-tile merge puzzle: the rule engine of `src/Pages/Game.jsx`.

The development embeds the engine part of the React component: tile creation
(`createTile`), the initial layout (`getInitialTiles`, `startGame`), the spawner
(`addRandomTile`) and the move handler (`move`), and proves properties of them.

Modelling decisions.

* JavaScript numbers are integers here: tile values, scores and ids are `Nat`,
  coordinates are `Int` (the move handler adds the vector components `-1`, `0`, `1`
  to them and tests the sum against `0` and `4`).
* JavaScript objects shared between `currentTiles` and `board` are modelled by
  their index in `currentTiles`: the board stores indices, and a write to a tile
  object is a write at that index.
* `Math.random()` is read from a stream `rnd : Nat → Nat`; the `k`-th call returns
  the real number `(rnd k % 2^53) / 2^53`, which lies in `[0, 1)`. The session
  records how many numbers were drawn. Products and comparisons on drawn numbers
  are exact (no rounding).
* The React state (`tiles`, `score`, `gameOver`) and the module variable
  `idCounter` form one record `Session`; a handler maps a session to the next.
* The board is a function from cells to contents. The source builds a 4×4 array, and
  `board[t.row][t.col] = t` fails for a tile whose row is not one of 0..3; the
  statements about the traversal are for tiles on the grid (`InGrid`), as all tiles
  made by `getInitialTiles` and `addRandomTile` are.
-/

set_option autoImplicit false

namespace Game

/-! ## Data model -/

/-- The four directions accepted by `move`. -/
inductive Direction where
  | up
  | down
  | left
  | right
deriving DecidableEq, Repr

/-- A tile object: the record built by `createTile`. -/
structure Tile where
  id : Nat
  value : Nat
  row : Int
  col : Int
  isNew : Bool
  isMerged : Bool
deriving DecidableEq, Repr

/-- The state of the component together with the module variable `idCounter` and the
number of random numbers drawn so far. -/
structure Session where
  tiles : List Tile
  score : Nat
  gameOver : Bool
  idCounter : Nat
  drawn : Nat
deriving DecidableEq, Repr

/-- `createTile(value, row, col, isNew, isMerged)`: the tile gets the id `idCounter`,
and the counter is advanced (`id: idCounter++`). The new counter is the second
component. -/
def createTile (idCounter : Nat) (value : Nat) (row col : Int) (isNew isMerged : Bool) :
    Tile × Nat :=
  ({ id := idCounter, value := value, row := row, col := col, isNew := isNew,
     isMerged := isMerged }, idCounter + 1)

/-! ## Random numbers -/

/-- `Math.floor(Math.random() * n)` for the drawn number `u`. -/
def randomFloor (u n : Nat) : Nat := (u % 2 ^ 53) * n / 2 ^ 53

/-- `Math.random() < 0.9` for the drawn number `u`. -/
def randomBelow09 (u : Nat) : Bool := decide ((u % 2 ^ 53) * 10 < 9 * 2 ^ 53)

/-! ## Initial layout -/

/-- The rejection loop of `getInitialTiles`: draw `pos2` (two numbers, row first) and
draw again while it equals `pos1`. `drawn` is the number of random numbers used so
far; the result is `pos2` and the new count. `none` means that the loop is still
running after `fuel` draws of `pos2`. -/
def drawSecond (rnd : Nat → Nat) (pos1 : Int × Int) : Nat → Nat → Option ((Int × Int) × Nat)
  | 0, _ => none
  | fuel + 1, drawn =>
    let pos2 : Int × Int := ((randomFloor (rnd drawn) 4 : Nat), (randomFloor (rnd (drawn + 1)) 4 : Nat))
    if pos1.1 = pos2.1 ∧ pos1.2 = pos2.2 then drawSecond rnd pos1 fuel (drawn + 2)
    else some (pos2, drawn + 2)

/-- `getInitialTiles()`: two tiles of value 2 at `pos1` and at a different `pos2`, both
flagged `isNew`. Returns the tiles, the new id counter and the new count of drawn
numbers. -/
def getInitialTiles (rnd : Nat → Nat) (fuel : Nat) (idCounter drawn : Nat) :
    Option (List Tile × Nat × Nat) :=
  let pos1 : Int × Int := ((randomFloor (rnd drawn) 4 : Nat), (randomFloor (rnd (drawn + 1)) 4 : Nat))
  match drawSecond rnd pos1 fuel (drawn + 2) with
  | none => none
  | some (pos2, drawn2) =>
    let t1 := createTile idCounter 2 pos1.1 pos1.2 true false
    let t2 := createTile t1.2 2 pos2.1 pos2.2 true false
    some ([t1.1, t2.1], t2.2, drawn2)

/-- `startGame()`: reset the id counter to 1, install the initial tiles, score 0 and
`gameOver = false`. -/
def startGame (rnd : Nat → Nat) (fuel : Nat) (s : Session) : Option Session :=
  match getInitialTiles rnd fuel 1 s.drawn with
  | none => none
  | some (tiles, idCounter, drawn) =>
    some { tiles := tiles, score := 0, gameOver := false, idCounter := idCounter, drawn := drawn }

/-! ## Spawner -/

/-- The nested loop of `addRandomTile` that collects the empty cells: rows 0..3,
columns 0..3, a cell is pushed when no tile has that row and column. -/
def emptyCells (tiles : List Tile) : List (Int × Int) :=
  ([0, 1, 2, 3] : List Int).foldl
    (fun acc r => ([0, 1, 2, 3] : List Int).foldl
      (fun acc c => if !tiles.any (fun t => decide (t.row = r ∧ t.col = c)) then acc ++ [(r, c)] else acc)
      acc)
    []

/-- `addRandomTile(currentTiles)`: when there is an empty cell, one is chosen with the
first drawn number, the value (2 or 4) with the second, and a tile flagged `isNew` is
pushed. Returns the tiles, the new id counter and the new count of drawn numbers. -/
def addRandomTile (rnd : Nat → Nat) (idCounter drawn : Nat) (currentTiles : List Tile) :
    List Tile × Nat × Nat :=
  let cells := emptyCells currentTiles
  if h : 0 < cells.length then
    let idx : Fin cells.length := ⟨randomFloor (rnd drawn) cells.length,
      Nat.div_lt_of_lt_mul (Nat.mul_lt_mul_of_lt_of_le (Nat.mod_lt _ (Nat.two_pow_pos 53))
        (Nat.le_refl _) h)⟩
    let cell := cells.get idx
    let value := if randomBelow09 (rnd (drawn + 1)) then 2 else 4
    let t := createTile idCounter value cell.1 cell.2 true false
    (currentTiles ++ [t.1], t.2, drawn + 2)
  else (currentTiles, idCounter, drawn)

/-! ## Move resolver -/

/-- The board of `move`: each cell holds `null` or a tile object, here the index of the
tile in `currentTiles`. -/
abbrev Board := Int → Int → Option Nat

/-- The assignment `board[r][c] = v`. -/
def Board.set (b : Board) (r c : Int) (v : Option Nat) : Board :=
  fun r2 c2 => if r2 = r ∧ c2 = c then v else b r2 c2

/-- The loop `currentTiles.forEach(t => { board[t.row][t.col] = t; })`, where `i` is the
index of the first tile of the list. -/
def placeAll : List Tile → Nat → Board → Board
  | [], _, b => b
  | t :: ts, i, b => placeAll ts (i + 1) (b.set t.row t.col (some i))

/-- A record of one merge (not a variable of the source: it is written in the merge
branch and read by nothing): the sliding tile, the tile it ran into, and that tile after
its value was doubled. -/
structure MergeEvent where
  absorbed : Tile
  target : Tile
  result : Tile
deriving DecidableEq, Repr

/-- The local variables of `move` during the traversal. -/
structure MoveState where
  currentTiles : List Tile
  board : Board
  moved : Bool
  scoreToAdd : Nat
  mergedIds : List Nat
  merges : List MergeEvent

/-- `getVector(dir)`: the pair `(r, c)`. -/
def getVector : Direction → Int × Int
  | .up => (-1, 0)
  | .down => (1, 0)
  | .left => (0, -1)
  | .right => (0, 1)

/-- The table `traversals`: the row order and the column order of each direction. -/
def traversals : Direction → List Int × List Int
  | .up => ([0, 1, 2, 3], [0, 1, 2, 3])
  | .down => ([3, 2, 1, 0], [0, 1, 2, 3])
  | .left => ([0, 1, 2, 3], [0, 1, 2, 3])
  | .right => ([0, 1, 2, 3], [3, 2, 1, 0])

/-- A write to the fields of the tile object with index `i`. -/
def modifyAt (ts : List Tile) (i : Nat) (f : Tile → Tile) : List Tile :=
  match ts[i]? with
  | some t => ts.set i (f t)
  | none => ts

/-- What the `while (true)` loop decides: the last cell reached (`currentPos`) and, when
the loop left through the merge branch, the cell `nextPos` and the tile found there. -/
structure WalkResult where
  currentPos : Int × Int
  merge : Option ((Int × Int) × Nat)

/-- The `while (true)` loop for the tile `tile`, from the cell `cur`: look at the next
cell along the vector; stop when it is off the grid; stop at a tile (with a merge when
the values are equal and neither id is in `mergedIds`); else advance. `none` means that
the loop is still running after `fuel` iterations. -/
def walk (s : MoveState) (v : Int × Int) (tile : Tile) : Nat → Int × Int → Option WalkResult
  | 0, _ => none
  | fuel + 1, cur =>
    let next : Int × Int := (cur.1 + v.1, cur.2 + v.2)
    if next.1 < 0 ∨ next.1 ≥ 4 ∨ next.2 < 0 ∨ next.2 ≥ 4 then
      some { currentPos := cur, merge := none }
    else
      match s.board next.1 next.2 with
      | some j =>
        match s.currentTiles[j]? with
        | some nextTile =>
          if nextTile.value = tile.value ∧ nextTile.id ∉ s.mergedIds ∧ tile.id ∉ s.mergedIds then
            some { currentPos := cur, merge := some (next, j) }
          else some { currentPos := cur, merge := none }
        | none => some { currentPos := cur, merge := none }
      | none => walk s v tile fuel next

/-- The merge branch, for the tile with index `i` found at `(r, c)` and the tile with
index `j` at `nextPos`: `board[r][c] = null; nextTile.value *= 2; nextTile.isMerged = true;
mergedIds.add(tile.id); tile.row = nextPos.r; tile.col = nextPos.c;
scoreToAdd += nextTile.value; moved = true`. -/
def applyMerge (s : MoveState) (r c : Int) (i : Nat) (tile : Tile) (nextPos : Int × Int)
    (j : Nat) : MoveState :=
  match s.currentTiles[j]? with
  | none => s
  | some nextTile =>
    let tiles1 := modifyAt s.currentTiles j
      (fun t => { t with value := t.value * 2, isMerged := true })
    let tiles2 := modifyAt tiles1 i (fun t => { t with row := nextPos.1, col := nextPos.2 })
    let doubled : Tile := { nextTile with value := nextTile.value * 2, isMerged := true }
    { currentTiles := tiles2,
      board := s.board.set r c none,
      moved := true,
      scoreToAdd := s.scoreToAdd + doubled.value,
      mergedIds := tile.id :: s.mergedIds,
      merges := s.merges ++ [{ absorbed := tile, target := nextTile, result := doubled }] }

/-- The block after the loop, taken when `currentPos` differs from `(r, c)`:
`board[r][c] = null; board[currentPos.r][currentPos.c] = tile; tile.row = currentPos.r;
tile.col = currentPos.c; moved = true`. -/
def applySlide (s : MoveState) (r c : Int) (i : Nat) (currentPos : Int × Int) : MoveState :=
  { s with
    currentTiles := modifyAt s.currentTiles i
      (fun t => { t with row := currentPos.1, col := currentPos.2 })
    board := (s.board.set r c none).set currentPos.1 currentPos.2 (some i)
    moved := true }

/-- What happens to the tile with index `i` found at `(r, c)` once the loop has ended
with `w`: the effects of the merge branch when it was taken, then the block that moves
the tile when `currentPos` differs from `(r, c)`. -/
def settle (s : MoveState) (r c : Int) (i : Nat) (tile : Tile) (w : WalkResult) : MoveState :=
  let s1 := match w.merge with
    | some (nextPos, j) => applyMerge s r c i tile nextPos j
    | none => s
  if w.currentPos.1 ≠ r ∨ w.currentPos.2 ≠ c then applySlide s1 r c i w.currentPos
  else s1

/-- The body of the two nested `forEach` loops for the cell `(r, c)`: nothing for an
empty cell, else the loop and its effects. The loop starts at a cell of the grid, so
four iterations always end it (`walk_isSome`). -/
def processCell (d : Direction) (s : MoveState) (r c : Int) : MoveState :=
  match s.board r c with
  | none => s
  | some i =>
    match s.currentTiles[i]? with
    | none => s
    | some tile =>
      match walk s (getVector d) tile 4 (r, c) with
      | none => s
      | some w => settle s r c i tile w

/-- The copy of the tiles made at the start of `move`, with both flags cleared. -/
def clearFlags (tiles : List Tile) : List Tile :=
  tiles.map (fun t => { t with isNew := false, isMerged := false })

/-- The locals of `move` before the traversal. -/
def initMove (tiles : List Tile) : MoveState :=
  { currentTiles := clearFlags tiles
    board := placeAll (clearFlags tiles) 0 (fun _ _ => none)
    moved := false
    scoreToAdd := 0
    mergedIds := []
    merges := [] }

/-- The traversal of `move`: rows in the outer loop, columns in the inner loop, in the
order given by `traversals`. -/
def resolve (d : Direction) (tiles : List Tile) : MoveState :=
  (traversals d).1.foldl
    (fun s r => (traversals d).2.foldl (fun s c => processCell d s r c) s)
    (initMove tiles)

/-- `currentTiles.filter(t => !mergedIds.has(t.id))` after the traversal. -/
def survivors (d : Direction) (tiles : List Tile) : List Tile :=
  (resolve d tiles).currentTiles.filter (fun t => decide (t.id ∉ (resolve d tiles).mergedIds))

/-! ## Game-over check and the move handler -/

/-- The four directions in the order of the game-over check. -/
def directions : List Direction := [.up, .down, .left, .right]

/-- The `canMove` loop of the game-over check: some tile has, in some direction, a
neighbouring cell on the grid whose tile (the first one found there) has the same
value. -/
def canMove (finalTiles : List Tile) : Bool :=
  finalTiles.any fun t =>
    directions.any fun dir =>
      let v := getVector dir
      let nr := t.row + v.1
      let nc := t.col + v.2
      decide (nr ≥ 0 ∧ nr < 4 ∧ nc ≥ 0 ∧ nc < 4) &&
        match finalTiles.find? (fun nt => decide (nt.row = nr ∧ nt.col = nc)) with
        | some neighbor => decide (neighbor.value = t.value)
        | none => false

/-- The handler `move(direction)`. -/
def move (rnd : Nat → Nat) (direction : Direction) (s : Session) : Session :=
  if s.gameOver then s
  else
    let res := resolve direction s.tiles
    if res.moved then
      let finalTiles := res.currentTiles.filter (fun t => decide (t.id ∉ res.mergedIds))
      let spawned := addRandomTile rnd s.idCounter s.drawn finalTiles
      let hasEmptyCell := decide (spawned.1.length < 16)
      { tiles := spawned.1
        score := s.score + res.scoreToAdd
        gameOver := if !hasEmptyCell && !canMove spawned.1 then true else s.gameOver
        idCounter := spawned.2.1
        drawn := spawned.2.2 }
    else s

/-- A tile without flags, for examples. -/
def mkTile (id value : Nat) (row col : Int) : Tile :=
  { id := id, value := value, row := row, col := col, isNew := false, isMerged := false }

/-! ## Predicates used in the statements -/

/-- The cell of a tile. -/
def cellOf (t : Tile) : Int × Int := (t.row, t.col)

/-- No two tiles of the list are in the same cell. -/
def DistinctCells (tiles : List Tile) : Prop := (tiles.map cellOf).Nodup

/-- Every tile of the list is in a cell of the 4×4 grid. -/
def InGrid (tiles : List Tile) : Prop :=
  ∀ t ∈ tiles, 0 ≤ t.row ∧ t.row < 4 ∧ 0 ≤ t.col ∧ t.col < 4

/-- No two tiles of the list have the same id. -/
def DistinctIds (tiles : List Tile) : Prop := (tiles.map (fun t => t.id)).Nodup

/-- Two cells share an edge. -/
def Adjacent (a b : Tile) : Prop :=
  (a.row - b.row).natAbs + (a.col - b.col).natAbs = 1

/-- The sessions reached from a `startGame()` by `move` calls, for the random stream
`rnd`. The session before `startGame()` is arbitrary. -/
inductive Reachable (rnd : Nat → Nat) : Session → Prop
  | start (fuel : Nat) (s0 s : Session) : startGame rnd fuel s0 = some s → Reachable rnd s
  | step (d : Direction) (s : Session) : Reachable rnd s → Reachable rnd (move rnd d s)

instance (tiles : List Tile) : Decidable (DistinctCells tiles) := by
  unfold DistinctCells; infer_instance

instance (tiles : List Tile) : Decidable (InGrid tiles) := by
  unfold InGrid; infer_instance

instance (tiles : List Tile) : Decidable (DistinctIds tiles) := by
  unfold DistinctIds; infer_instance

instance (a b : Tile) : Decidable (Adjacent a b) := by
  unfold Adjacent; infer_instance

/-- Some cell of the grid holds no tile of the list. -/
def HasEmptyCell (tiles : List Tile) : Prop :=
  ∃ r c : Int, 0 ≤ r ∧ r < 4 ∧ 0 ≤ c ∧ c < 4 ∧ ∀ t ∈ tiles, ¬ (t.row = r ∧ t.col = c)

/-- What `addRandomTile` promises about the tile `t` pushed after `tiles`. -/
def SpawnedOn (tiles : List Tile) (t : Tile) : Prop :=
  (t.value = 2 ∨ t.value = 4) ∧ t.isNew = true ∧ t.isMerged = false ∧
    0 ≤ t.row ∧ t.row < 4 ∧ 0 ≤ t.col ∧ t.col < 4 ∧
    ∀ u ∈ tiles, ¬ (u.row = t.row ∧ u.col = t.col)

/-! ## Example inputs -/

/-- The row with values 2, 2, 4 at columns 0, 1, 2 of row 0. -/
def row224 : List Tile := [mkTile 1 2 0 0, mkTile 2 2 0 1, mkTile 3 4 0 2]

/-- A session with one tile in the corner, for which a move to the left changes
nothing. -/
def cornerSession : Session :=
  { tiles := [mkTile 1 2 0 0], score := 0, gameOver := false, idCounter := 2, drawn := 0 }

/-- A finished session. -/
def overSession : Session :=
  { tiles := [mkTile 1 2 0 0], score := 0, gameOver := true, idCounter := 2, drawn := 0 }

/-- A random stream whose numbers are 0, 1/4, 1/2, 3/4, 1, ... (taken modulo 1). -/
def quarterStream : Nat → Nat := fun n => n * 2 ^ 51

/-- The session that `startGame` builds from `quarterStream`. -/
def startedSession : Session :=
  { tiles := [{ id := 1, value := 2, row := 0, col := 1, isNew := true, isMerged := false },
              { id := 2, value := 2, row := 2, col := 3, isNew := true, isMerged := false }],
    score := 0, gameOver := false, idCounter := 3, drawn := 4 }

/-- A session whose tiles are the row 2, 2, 4. -/
def session224 : Session :=
  { tiles := row224, score := 0, gameOver := false, idCounter := 4, drawn := 0 }

/-! ## Invariants of the traversal -/

/-- The cell is on the 4×4 grid. -/
def OnGrid (p : Int × Int) : Prop := 0 ≤ p.1 ∧ p.1 < 4 ∧ 0 ≤ p.2 ∧ p.2 < 4

/-- The merge test of the loop, for the tile found ahead. -/
def Mergeable (s : MoveState) (tile nextTile : Tile) : Prop :=
  nextTile.value = tile.value ∧ nextTile.id ∉ s.mergedIds ∧ tile.id ∉ s.mergedIds

/-- The number of cells between a cell and the edge of the grid in a direction. -/
def distToEdge : Direction → Int × Int → Int
  | .up, p => p.1
  | .down, p => 3 - p.1
  | .left, p => p.2
  | .right, p => 3 - p.2

/-- How far along the direction a cell lies: it grows by one with each step of a tile. -/
def along (d : Direction) (p : Int × Int) : Int :=
  p.1 * (getVector d).1 + p.2 * (getVector d).2

/-- The invariant of the traversal of `move`, for the direction `d` and the tiles `ts`
the traversal started from (flags cleared). -/
structure Inv (d : Direction) (ts : List Tile) (s : MoveState) : Prop where
  ids : s.currentTiles.map (fun t => t.id) = ts.map (fun t => t.id)
  board_tile : ∀ (r c : Int) (i : Nat), s.board r c = some i →
    ∃ t, s.currentTiles[i]? = some t ∧ t.row = r ∧ t.col = c
  live_board : ∀ (i : Nat) (t : Tile), s.currentTiles[i]? = some t → t.id ∉ s.mergedIds →
    s.board t.row t.col = some i
  in_grid : ∀ (i : Nat) (t : Tile), s.currentTiles[i]? = some t → OnGrid (t.row, t.col)
  merged_sub : ∀ m ∈ s.mergedIds, m ∈ ts.map (fun t => t.id)
  mono : ∀ (k : Nat) (t t0 : Tile), s.currentTiles[k]? = some t → ts[k]? = some t0 →
    along d (t0.row, t0.col) ≤ along d (t.row, t.col)
  moved_imp : s.moved = true → s.merges ≠ [] ∨
    ∃ (k : Nat) (t t0 : Tile), s.currentTiles[k]? = some t ∧ ts[k]? = some t0 ∧
      along d (t0.row, t0.col) < along d (t.row, t.col)
  not_moved : s.moved = false →
    s.currentTiles = ts ∧ s.mergedIds = [] ∧ s.merges = [] ∧ s.scoreToAdd = 0
  score_eq : s.scoreToAdd = (s.merges.map (fun e => e.result.value)).sum
  merge_ok : ∀ e ∈ s.merges,
    e.target.value = e.absorbed.value ∧ e.result.value = 2 * e.absorbed.value
  merged_eq : s.mergedIds = (s.merges.map (fun e => e.absorbed.id)).reverse
  merged_nodup : s.mergedIds.Nodup

/-- The sum, over the tiles whose id is in `ids`, of twice their value. -/
def removedScore (ids : List Nat) (tiles : List Tile) : Nat :=
  (tiles.map (fun t => if t.id ∈ ids then 2 * t.value else 0)).sum

/-- The part of the invariant that needs distinct ids: the score delta is the sum of twice
the value of the tiles to be removed, and a tile survives when there is a tile at all. -/
structure InvIds (ts : List Tile) (s : MoveState) : Prop where
  removed : s.scoreToAdd = removedScore s.mergedIds s.currentTiles
  survivor : ts ≠ [] →
    ∃ (k : Nat) (t : Tile), s.currentTiles[k]? = some t ∧ t.id ∉ s.mergedIds

/-- The invariant of the sessions: tiles in distinct cells of the grid, between 2 and 16 of
them, with distinct ids below the id counter. -/
structure SessionInv (s : Session) : Prop where
  cells : DistinctCells s.tiles
  grid : InGrid s.tiles
  two_le : 2 ≤ s.tiles.length
  le_sixteen : s.tiles.length ≤ 16
  ids : DistinctIds s.tiles
  ids_lt : ∀ t ∈ s.tiles, t.id < s.idCounter

/-- A tile value of the game: a power of two, at least 2. -/
def IsTileValue (v : Nat) : Prop := ∃ k : Nat, 1 ≤ k ∧ v = 2 ^ k

/-- The 16 cells of the grid in row-major order. -/
def allCells : List (Int × Int) :=
  [(0, 0), (0, 1), (0, 2), (0, 3), (1, 0), (1, 1), (1, 2), (1, 3),
   (2, 0), (2, 1), (2, 2), (2, 3), (3, 0), (3, 1), (3, 2), (3, 3)]

/-- The row with values 2, 2, 2 at columns 0, 2, 3 of row 0 (column 1 empty). -/
def row2022 : List Tile := [mkTile 1 2 0 0, mkTile 2 2 0 2, mkTile 3 2 0 3]

/-- The random stream that always returns 0. -/
def zeroStream : Nat → Nat := fun _ => 0

/-- The `n`-th candidate for `pos2` in the rejection loop of `getInitialTiles`, when the
loop starts after `drawn` random numbers. -/
def secondDraw (rnd : Nat → Nat) (drawn n : Nat) : Int × Int :=
  ((randomFloor (rnd (drawn + 2 * n)) 4 : Nat), (randomFloor (rnd (drawn + 2 * n + 1)) 4 : Nat))

/-- The cell `n` steps ahead of `(r, c)` in the direction `d`. -/
def ahead (d : Direction) (r c : Int) (n : Nat) : Int × Int :=
  (r + n * (getVector d).1, c + n * (getVector d).2)

/-- The tile `t` cannot act in the direction `d`: the next cell is off the grid, or it holds
a tile of a different value. -/
def Blocked (d : Direction) (tiles : List Tile) (t : Tile) : Prop :=
  ¬ OnGrid (t.row + (getVector d).1, t.col + (getVector d).2) ∨
    ∃ u ∈ tiles, u.row = t.row + (getVector d).1 ∧ u.col = t.col + (getVector d).2 ∧
      u.value ≠ t.value

/-- The row with values 2, 4, 2, 4. -/
def row2424 : List Tile := [mkTile 1 2 0 0, mkTile 2 4 0 1, mkTile 3 2 0 2, mkTile 4 4 0 3]

/-- The cells of the grid in the order in which `move` visits them. -/
def traversalCells (d : Direction) : List (Int × Int) :=
  (traversals d).1.flatMap (fun r => (traversals d).2.map (fun c => (r, c)))

/-- The test of the game-over check of `move`: no empty cell (`length < 16` is false) and
`canMove` is false. -/
def gameOverTest (tiles : List Tile) : Bool :=
  !decide (tiles.length < 16) && !canMove tiles

/-- The sum of the values of the tiles. -/
def totalValue (tiles : List Tile) : Nat := (tiles.map (fun t => t.value)).sum

/-- More of the invariant of the traversal: which tiles are flagged `isMerged`, where the
tiles run into come from, and the sum of the values. -/
structure InvMore (ts : List Tile) (s : MoveState) : Prop where
  merged_iff : ∀ (k : Nat) (t : Tile), s.currentTiles[k]? = some t →
    (t.isMerged = true ↔ ∃ e ∈ s.merges, e.target.id = t.id)
  total : 2 * totalValue s.currentTiles = 2 * totalValue ts + s.scoreToAdd

/-- A full board on which no two cells that share an edge hold equal values. -/
def fullBoard : List Tile :=
  [mkTile 1 2 0 0, mkTile 2 4 0 1, mkTile 3 2 0 2, mkTile 4 4 0 3,
   mkTile 5 4 1 0, mkTile 6 2 1 1, mkTile 7 4 1 2, mkTile 8 2 1 3,
   mkTile 9 2 2 0, mkTile 10 4 2 1, mkTile 11 2 2 2, mkTile 12 4 2 3,
   mkTile 13 4 3 0, mkTile 14 2 3 1, mkTile 15 4 3 2, mkTile 16 2 3 3]

/-- The first tile of `startedSession`. -/
def startedTile : Tile :=
  { id := 1, value := 2, row := 0, col := 1, isNew := true, isMerged := false }

/-! ## The row 2, 2, 4 moved left -/

/-- C1, evaluated at the row 2, 2, 4 moved left: the move performs two merges, and the
tile with id 1 is the tile run into in both of them (first by tile 2, then, with its
value already doubled to 4, by tile 3). -/
theorem row224_left_merges :
    (resolve .left row224).merges.map
        (fun e => (e.absorbed.id, e.target.id, e.target.value, e.result.value))
      = [(2, 1, 2, 4), (3, 1, 4, 8)] := by
  decide

/-- C2, evaluated at the row 2, 2, 4 moved left: before spawning one tile is left, of
value 8 at column 0, the score delta is 12 and `moved` is true. -/
theorem row224_left_result :
    survivors .left row224
        = [{ id := 1, value := 8, row := 0, col := 0, isNew := false, isMerged := true }]
      ∧ (resolve .left row224).scoreToAdd = 12
      ∧ (resolve .left row224).moved = true := by
  decide

/-! ## Moves that change nothing -/

/-- C5: when the game is not over and the traversal reports `moved = false`, `move`
returns the session it was given (tiles with ids, values, cells and flags, score,
`gameOver`), in particular the id counter and the count of drawn random numbers are
unchanged; so any number of repetitions of the move gives the same session. -/
theorem move_eq_self_of_not_moved (rnd : Nat → Nat) (d : Direction) (s : Session)
    (hg : s.gameOver = false) (hm : (resolve d s.tiles).moved = false) :
    move rnd d s = s ∧ (move rnd d s).idCounter = s.idCounter ∧
      (move rnd d s).drawn = s.drawn ∧ ∀ n : Nat, (move rnd d)^[n] s = s := by
  have h : move rnd d s = s := by simp [move, hg, hm]
  exact ⟨h, by rw [h], by rw [h], fun n => Function.iterate_fixed h n⟩

theorem move_eq_self_of_not_moved_witness :
    cornerSession.gameOver = false ∧ (resolve .left cornerSession.tiles).moved = false ∧
      move (fun _ => 0) .left cornerSession = cornerSession :=
  ⟨by decide, by decide,
    (move_eq_self_of_not_moved (fun _ => 0) .left cornerSession (by decide) (by decide)).1⟩

/-- C6: in a session with `gameOver = true`, `move` returns the session unchanged for
every direction, hence also every sequence of moves does, and `gameOver` is still true
after it; `startGame`, when it returns, sets `gameOver` to false. -/
theorem move_eq_self_of_gameOver (rnd : Nat → Nat) (s : Session) (h : s.gameOver = true) :
    (∀ d : Direction, move rnd d s = s) ∧
      (∀ ds : List Direction, ds.foldl (fun acc d => move rnd d acc) s = s) ∧
      (∀ ds : List Direction, (ds.foldl (fun acc d => move rnd d acc) s).gameOver = true) ∧
      (∀ (fuel : Nat) (s2 : Session), startGame rnd fuel s = some s2 → s2.gameOver = false) := by
  have h1 : ∀ d : Direction, move rnd d s = s := fun d => by simp [move, h]
  have h2 : ∀ ds : List Direction, ds.foldl (fun acc d => move rnd d acc) s = s := by
    intro ds
    induction ds with
    | nil => rfl
    | cons d ds ih => rw [List.foldl_cons, h1 d, ih]
  refine ⟨h1, h2, fun ds => by rw [h2 ds, h], ?_⟩
  intro fuel s2 hs
  unfold startGame at hs
  split at hs
  · cases hs
  · cases hs
    rfl

theorem move_eq_self_of_gameOver_witness :
    overSession.gameOver = true ∧ move (fun _ => 0) .right overSession = overSession :=
  ⟨by decide, (move_eq_self_of_gameOver (fun _ => 0) overSession (by decide)).1 .right⟩

/-! ## Random numbers and the initial layout -/

theorem randomFloor_lt (u n : Nat) (h : 0 < n) : randomFloor u n < n := by
  unfold randomFloor
  exact Nat.div_lt_of_lt_mul (Nat.mul_lt_mul_of_lt_of_le (Nat.mod_lt _ (Nat.two_pow_pos 53))
    (Nat.le_refl _) h)

theorem drawSecond_spec (rnd : Nat → Nat) (pos1 : Int × Int) (fuel drawn : Nat)
    (pos2 : Int × Int) (drawn2 : Nat) (h : drawSecond rnd pos1 fuel drawn = some (pos2, drawn2)) :
    (pos1.1 ≠ pos2.1 ∨ pos1.2 ≠ pos2.2) ∧ 0 ≤ pos2.1 ∧ pos2.1 < 4 ∧ 0 ≤ pos2.2 ∧ pos2.2 < 4 := by
  induction fuel generalizing drawn with
  | zero => simp [drawSecond] at h
  | succ fuel ih =>
    simp only [drawSecond] at h
    split at h
    · exact ih _ h
    · rename_i hne
      simp only [Option.some.injEq, Prod.mk.injEq] at h
      obtain ⟨h1, -⟩ := h
      subst h1
      have ha := randomFloor_lt (rnd drawn) 4 (by decide)
      have hb := randomFloor_lt (rnd (drawn + 1)) 4 (by decide)
      refine ⟨?_, ?_, ?_, ?_, ?_⟩
      · by_contra hc
        push_neg at hc
        exact hne hc
      all_goals simp only
      all_goals omega

theorem getInitialTiles_spec (rnd : Nat → Nat) (fuel idCounter drawn : Nat) (tiles : List Tile)
    (idCounter2 drawn2 : Nat)
    (h : getInitialTiles rnd fuel idCounter drawn = some (tiles, idCounter2, drawn2)) :
    ∃ r1 c1 r2 c2 : Int,
      tiles = [{ id := idCounter, value := 2, row := r1, col := c1, isNew := true,
                 isMerged := false },
               { id := idCounter + 1, value := 2, row := r2, col := c2, isNew := true,
                 isMerged := false }] ∧
      (0 ≤ r1 ∧ r1 < 4 ∧ 0 ≤ c1 ∧ c1 < 4) ∧ (0 ≤ r2 ∧ r2 < 4 ∧ 0 ≤ c2 ∧ c2 < 4) ∧
      (r1 ≠ r2 ∨ c1 ≠ c2) ∧ idCounter2 = idCounter + 2 := by
  unfold getInitialTiles at h
  simp only at h
  split at h
  · cases h
  · rename_i pos2 dr hd
    simp only [createTile, Option.some.injEq, Prod.mk.injEq] at h
    obtain ⟨ht, hi, -⟩ := h
    subst ht hi
    have hspec := drawSecond_spec rnd _ fuel _ pos2 dr hd
    have ha := randomFloor_lt (rnd drawn) 4 (by decide)
    have hb := randomFloor_lt (rnd (drawn + 1)) 4 (by decide)
    refine ⟨_, _, pos2.1, pos2.2, rfl, ⟨?_, ?_, ?_, ?_⟩, hspec.2, hspec.1, rfl⟩
    all_goals omega

/-- C10: whenever `startGame` returns (for every session before it, every random stream
and every bound on the rejection loop), the new session has exactly two tiles, with
ids 1 and 2, both of value 2 and flagged `isNew`, in two different cells of the grid,
score 0, `gameOver = false`, and the id counter is 3. The session before the call is
arbitrary, so the same holds for a second call right after a first one. -/
theorem startGame_shape (rnd : Nat → Nat) (fuel : Nat) (s s2 : Session)
    (h : startGame rnd fuel s = some s2) :
    ∃ r1 c1 r2 c2 : Int,
      s2.tiles = [{ id := 1, value := 2, row := r1, col := c1, isNew := true, isMerged := false },
                  { id := 2, value := 2, row := r2, col := c2, isNew := true, isMerged := false }] ∧
      (0 ≤ r1 ∧ r1 < 4 ∧ 0 ≤ c1 ∧ c1 < 4) ∧ (0 ≤ r2 ∧ r2 < 4 ∧ 0 ≤ c2 ∧ c2 < 4) ∧
      (r1 ≠ r2 ∨ c1 ≠ c2) ∧ s2.score = 0 ∧ s2.gameOver = false ∧ s2.idCounter = 3 := by
  unfold startGame at h
  split at h
  · cases h
  · rename_i tiles idc dr heq
    simp only [Option.some.injEq] at h
    subst h
    obtain ⟨r1, c1, r2, c2, ht, hg1, hg2, hne, hid⟩ := getInitialTiles_spec rnd fuel 1 _ _ _ _ heq
    exact ⟨r1, c1, r2, c2, ht, hg1, hg2, hne, rfl, rfl, hid⟩

theorem startGame_shape_witness :
    startGame quarterStream 5 overSession = some startedSession ∧
      ∃ r1 c1 r2 c2 : Int,
        startedSession.tiles
          = [{ id := 1, value := 2, row := r1, col := c1, isNew := true, isMerged := false },
             { id := 2, value := 2, row := r2, col := c2, isNew := true, isMerged := false }] ∧
        (0 ≤ r1 ∧ r1 < 4 ∧ 0 ≤ c1 ∧ c1 < 4) ∧ (0 ≤ r2 ∧ r2 < 4 ∧ 0 ≤ c2 ∧ c2 < 4) ∧
        (r1 ≠ r2 ∨ c1 ≠ c2) ∧ startedSession.score = 0 ∧ startedSession.gameOver = false ∧
        startedSession.idCounter = 3 :=
  ⟨by decide, startGame_shape quarterStream 5 overSession startedSession (by decide)⟩

/-! ## The spawner -/

theorem foldl_push_eq {α β : Type} (p : α → Bool) (f : α → β) (xs : List α) (acc : List β) :
    xs.foldl (fun acc x => if p x then acc ++ [f x] else acc) acc
      = acc ++ (xs.filter p).map f := by
  induction xs generalizing acc with
  | nil => simp
  | cons x xs ih =>
    rw [List.foldl_cons, ih]
    by_cases hx : p x <;> simp [hx]

theorem foldl_append_eq {α β : Type} (g : α → List β) (xs : List α) (acc : List β) :
    xs.foldl (fun acc x => acc ++ g x) acc = acc ++ (xs.map g).flatten := by
  induction xs generalizing acc with
  | nil => simp
  | cons x xs ih => rw [List.foldl_cons, ih]; simp

/-- The empty cells are the cells of the grid, in row-major order, that hold no tile. -/
theorem emptyCells_eq (tiles : List Tile) :
    emptyCells tiles =
      (([0, 1, 2, 3] : List Int).map (fun r =>
        (([0, 1, 2, 3] : List Int).filter
          (fun c => !tiles.any (fun t => decide (t.row = r ∧ t.col = c)))).map
          (fun c => (r, c)))).flatten := by
  unfold emptyCells
  have h : ∀ (r : Int) (acc : List (Int × Int)),
      ([0, 1, 2, 3] : List Int).foldl
        (fun acc c => if !tiles.any (fun t => decide (t.row = r ∧ t.col = c)) then acc ++ [(r, c)]
          else acc) acc
      = acc ++ (([0, 1, 2, 3] : List Int).filter
          (fun c => !tiles.any (fun t => decide (t.row = r ∧ t.col = c)))).map (fun c => (r, c)) :=
    fun r acc => foldl_push_eq _ _ _ acc
  simp only [h]
  rw [foldl_append_eq]
  simp

theorem mem_emptyCells (tiles : List Tile) (p : Int × Int) :
    p ∈ emptyCells tiles ↔
      (0 ≤ p.1 ∧ p.1 < 4 ∧ 0 ≤ p.2 ∧ p.2 < 4) ∧ ∀ t ∈ tiles, ¬ (t.row = p.1 ∧ t.col = p.2) := by
  rw [emptyCells_eq]
  obtain ⟨r, c⟩ := p
  simp only [List.mem_flatten, List.mem_map, List.mem_filter, Bool.not_eq_true', List.any_eq_false,
    decide_eq_true_eq, List.mem_cons, List.mem_singleton, List.not_mem_nil, or_false]
  constructor
  · rintro ⟨l, ⟨r2, hr2, rfl⟩, hmem⟩
    simp only [List.mem_map, List.mem_filter, List.mem_cons, List.mem_singleton, List.not_mem_nil,
      or_false, Prod.mk.injEq, Bool.not_eq_true', List.any_eq_false, decide_eq_true_eq] at hmem
    obtain ⟨c2, ⟨hc2, hfree⟩, rfl, rfl⟩ := hmem
    refine ⟨?_, hfree⟩
    rcases hr2 with h | h | h | h <;> rcases hc2 with h2 | h2 | h2 | h2 <;> subst h <;> subst h2 <;> decide
  · rintro ⟨⟨h1, h2, h3, h4⟩, hfree⟩
    refine ⟨_, ⟨r, ?_, rfl⟩, ?_⟩
    · omega
    · simp only [List.mem_map, List.mem_filter, List.mem_cons, List.mem_singleton,
        List.not_mem_nil, or_false, Prod.mk.injEq, Bool.not_eq_true', List.any_eq_false,
        decide_eq_true_eq]
      exact ⟨c, ⟨by omega, hfree⟩, by simp⟩

theorem addRandomTile_spec (rnd : Nat → Nat) (idCounter drawn : Nat) (tiles : List Tile)
    (h : HasEmptyCell tiles) :
    ∃ t : Tile, addRandomTile rnd idCounter drawn tiles = (tiles ++ [t], idCounter + 1, drawn + 2) ∧
      t.id = idCounter ∧ SpawnedOn tiles t := by
  obtain ⟨r, c, h1, h2, h3, h4, hfree⟩ := h
  have hmem : (r, c) ∈ emptyCells tiles := (mem_emptyCells tiles (r, c)).2 ⟨⟨h1, h2, h3, h4⟩, hfree⟩
  have hlen : 0 < (emptyCells tiles).length := List.length_pos_of_mem hmem
  unfold addRandomTile
  simp only [hlen, dite_true, createTile]
  refine ⟨_, rfl, rfl, ?_⟩
  have hcell := (mem_emptyCells tiles _).1
    (List.get_mem (emptyCells tiles) (randomFloor (rnd drawn) (emptyCells tiles).length)
      (randomFloor_lt _ _ hlen))
  refine ⟨?_, rfl, rfl, hcell.1.1, hcell.1.2.1, hcell.1.2.2.1, hcell.1.2.2.2, hcell.2⟩
  by_cases hv : randomBelow09 (rnd (drawn + 1)) <;> simp [hv]

/-- C8: for every tile list with an empty cell and every random stream, `addRandomTile`
returns the input tiles unchanged and in order followed by exactly one new tile, whose
value is 2 or 4, whose `isNew` flag is true, and whose cell is in the grid and held no
input tile (it also takes the next id and draws two numbers). Hence a move with
`gameOver = false` and `moved = true` whose resolved tiles leave a cell empty returns
the resolved tiles followed by exactly one such tile. -/
theorem addRandomTile_adds_one (rnd : Nat → Nat) :
    (∀ (idCounter drawn : Nat) (tiles : List Tile), HasEmptyCell tiles →
      ∃ t : Tile,
        addRandomTile rnd idCounter drawn tiles = (tiles ++ [t], idCounter + 1, drawn + 2) ∧
        t.id = idCounter ∧ SpawnedOn tiles t) ∧
    (∀ (d : Direction) (s : Session), s.gameOver = false → (resolve d s.tiles).moved = true →
      HasEmptyCell (survivors d s.tiles) →
      ∃ t : Tile, (move rnd d s).tiles = survivors d s.tiles ++ [t] ∧
        t.id = s.idCounter ∧ SpawnedOn (survivors d s.tiles) t) := by
  refine ⟨fun idCounter drawn tiles h => addRandomTile_spec rnd idCounter drawn tiles h, ?_⟩
  intro d s hg hm hempty
  obtain ⟨t, ht, hid, hsp⟩ := addRandomTile_spec rnd s.idCounter s.drawn _ hempty
  refine ⟨t, ?_, hid, hsp⟩
  unfold survivors at ht
  simp only [move, hg, hm, Bool.false_eq_true, if_false, if_true, ht]
  rfl

theorem addRandomTile_adds_one_witness :
    ∃ t : Tile,
      addRandomTile quarterStream 4 0 row224 = (row224 ++ [t], 4 + 1, 0 + 2) ∧
      t.id = 4 ∧ SpawnedOn row224 t :=
  (addRandomTile_adds_one quarterStream).1 4 0 row224
    ⟨3, 3, by decide, by decide, by decide, by decide, by decide⟩

/-! ## Writes to tile objects and to the board -/

theorem getElem?_modifyAt (ts : List Tile) (i k : Nat) (f : Tile → Tile) :
    (modifyAt ts i f)[k]? = if k = i then (ts[i]?).map f else ts[k]? := by
  unfold modifyAt
  cases h : ts[i]? with
  | none =>
    simp only [Option.map_none']
    split
    · rename_i hk; subst hk; exact h
    · rfl
  | some t =>
    have hi : i < ts.length := (List.getElem?_eq_some.1 h).1
    simp only [Option.map_some']
    rw [List.getElem?_set]
    by_cases hk : k = i
    · subst hk; simp [hi]
    · have : ¬ i = k := fun h => hk h.symm
      simp [hk, this]

theorem length_modifyAt (ts : List Tile) (i : Nat) (f : Tile → Tile) :
    (modifyAt ts i f).length = ts.length := by
  unfold modifyAt
  split <;> simp

theorem Board.set_apply (b : Board) (r c : Int) (v : Option Nat) (r2 c2 : Int) :
    (b.set r c v) r2 c2 = if r2 = r ∧ c2 = c then v else b r2 c2 := rfl

/-- The board built from a list of tiles in distinct cells. -/
theorem placeAll_apply (ts : List Tile) (i : Nat) (b : Board) (r c : Int)
    (hd : DistinctCells ts) (k : Nat) :
    placeAll ts i b r c = some k ↔
      (∃ t, i ≤ k ∧ ts[k - i]? = some t ∧ t.row = r ∧ t.col = c) ∨
      (b r c = some k ∧ ∀ t ∈ ts, ¬ (t.row = r ∧ t.col = c)) := by
  induction ts generalizing i b with
  | nil => simp [placeAll]
  | cons t ts ih =>
    have hd2 : DistinctCells ts := by
      unfold DistinctCells at hd ⊢
      simp only [List.map_cons, List.nodup_cons] at hd
      exact hd.2
    have hnot : ∀ u ∈ ts, ¬ (u.row = t.row ∧ u.col = t.col) := by
      intro u hu huv
      unfold DistinctCells at hd
      simp only [List.map_cons, List.nodup_cons, List.mem_map, not_exists, not_and] at hd
      exact hd.1 u hu (by simp [cellOf, huv.1, huv.2])
    rw [placeAll, ih _ _ hd2, Board.set_apply]
    constructor
    · rintro (⟨u, hik, hu, hr, hc⟩ | ⟨hb, hfree⟩)
      · left
        refine ⟨u, by omega, ?_, hr, hc⟩
        have : k - i = (k - (i + 1)) + 1 := by omega
        rw [this, List.getElem?_cons_succ]
        exact hu
      · split at hb
        · rename_i hrc
          left
          simp only [Option.some.injEq] at hb
          subst hb
          exact ⟨t, le_refl _, by simp, hrc.1.symm, hrc.2.symm⟩
        · rename_i hrc
          right
          refine ⟨hb, ?_⟩
          intro u hu
          rcases List.mem_cons.1 hu with rfl | hu
          · intro h; exact hrc ⟨h.1.symm, h.2.symm⟩
          · exact hfree u hu
    · rintro (⟨u, hik, hu, hr, hc⟩ | ⟨hb, hfree⟩)
      · rcases Nat.eq_or_lt_of_le hik with heq | hlt
        · subst heq
          simp only [Nat.sub_self, List.getElem?_cons_zero, Option.some.injEq] at hu
          subst hu
          right
          refine ⟨by simp [hr, hc], ?_⟩
          intro v hv
          rw [← hr, ← hc]
          exact hnot v hv
        · left
          refine ⟨u, by omega, ?_, hr, hc⟩
          have : k - i = (k - (i + 1)) + 1 := by omega
          rw [this, List.getElem?_cons_succ] at hu
          exact hu
      · right
        have hne : ¬ (r = t.row ∧ c = t.col) := by
          intro h
          exact hfree t (List.mem_cons_self _ _) ⟨h.1.symm, h.2.symm⟩
        simp only [hne, if_false]
        exact ⟨hb, fun u hu => hfree u (List.mem_cons_of_mem _ hu)⟩

/-! ## The loop of one tile -/

theorem walk_spec (s : MoveState) (v : Int × Int) (tile : Tile) (fuel : Nat) (cur : Int × Int)
    (w : WalkResult) (h : walk s v tile fuel cur = some w) :
    ∃ k : Nat, k < fuel ∧ w.currentPos = (cur.1 + k * v.1, cur.2 + k * v.2) ∧
      (∀ m : Nat, 1 ≤ m → m ≤ k →
        s.board (cur.1 + m * v.1) (cur.2 + m * v.2) = none ∧
        OnGrid (cur.1 + m * v.1, cur.2 + m * v.2)) ∧
      (∀ np j, w.merge = some (np, j) →
        np = (w.currentPos.1 + v.1, w.currentPos.2 + v.2) ∧ OnGrid np ∧
        s.board np.1 np.2 = some j ∧
        ∃ nt, s.currentTiles[j]? = some nt ∧ Mergeable s tile nt) ∧
      (w.merge = none →
        ¬ OnGrid (w.currentPos.1 + v.1, w.currentPos.2 + v.2) ∨
        ∃ j, s.board (w.currentPos.1 + v.1) (w.currentPos.2 + v.2) = some j ∧
          ∀ nt, s.currentTiles[j]? = some nt → ¬ Mergeable s tile nt) := by
  induction fuel generalizing cur with
  | zero => simp [walk] at h
  | succ fuel ih =>
    simp only [walk] at h
    split at h
    · rename_i hout
      simp only [Option.some.injEq] at h
      subst h
      refine ⟨0, by omega, by simp, fun m h1 h2 => by omega, fun np j hm => by simp at hm, ?_⟩
      intro _
      left
      unfold OnGrid
      simp only
      omega
    · rename_i hin
      have hon : OnGrid (cur.1 + v.1, cur.2 + v.2) := by
        unfold OnGrid
        simp only
        omega
      split at h
      · rename_i j hj
        split at h
        · rename_i nextTile hnt
          split at h
          · rename_i hcond
            simp only [Option.some.injEq] at h
            subst h
            refine ⟨0, by omega, by simp, fun m h1 h2 => by omega, ?_, fun hm => by simp at hm⟩
            intro np j2 hm
            simp only [Option.some.injEq, Prod.mk.injEq] at hm
            obtain ⟨rfl, rfl⟩ := hm
            exact ⟨rfl, hon, hj, nextTile, hnt, hcond⟩
          · rename_i hcond
            simp only [Option.some.injEq] at h
            subst h
            refine ⟨0, by omega, by simp, fun m h1 h2 => by omega, fun np j hm => by simp at hm, ?_⟩
            intro _
            right
            refine ⟨j, hj, ?_⟩
            intro nt hnt2
            rw [hnt] at hnt2
            cases hnt2
            exact hcond
        · rename_i hnt
          simp only [Option.some.injEq] at h
          subst h
          refine ⟨0, by omega, by simp, fun m h1 h2 => by omega, fun np j hm => by simp at hm, ?_⟩
          intro _
          right
          exact ⟨j, hj, fun nt hnt2 => by rw [hnt] at hnt2; cases hnt2⟩
      · rename_i hnone
        obtain ⟨k, hk, hpos, hbetween, hmerge, hblocked⟩ := ih _ h
        have e1 : ∀ m : Nat, cur.1 + v.1 + (m : Int) * v.1 = cur.1 + ((m + 1 : Nat) : Int) * v.1 := by
          intro m; push_cast; ring
        have e2 : ∀ m : Nat, cur.2 + v.2 + (m : Int) * v.2 = cur.2 + ((m + 1 : Nat) : Int) * v.2 := by
          intro m; push_cast; ring
        refine ⟨k + 1, by omega, ?_, ?_, hmerge, hblocked⟩
        · rw [hpos]
          simp only [e1, e2]
        · intro m h1 h2
          obtain ⟨m2, rfl⟩ : ∃ m2, m = m2 + 1 := ⟨m - 1, by omega⟩
          rcases Nat.eq_zero_or_pos m2 with rfl | hpos2
          · simp only [Nat.zero_add, Nat.cast_one, one_mul]
            exact ⟨hnone, hon⟩
          · have := hbetween m2 hpos2 (by omega)
            simp only [e1, e2] at this
            exact this

theorem walk_isSome_of_dist (s : MoveState) (d : Direction) (tile : Tile) (fuel : Nat)
    (cur : Int × Int) (hg : OnGrid cur) (hd : distToEdge d cur < fuel) :
    ∃ w, walk s (getVector d) tile fuel cur = some w := by
  induction fuel generalizing cur with
  | zero =>
    unfold OnGrid at hg
    cases d <;> simp only [distToEdge] at hd <;> omega
  | succ fuel ih =>
    simp only [walk]
    split
    · exact ⟨_, rfl⟩
    · rename_i hin
      split
      · split
        · split <;> exact ⟨_, rfl⟩
        · exact ⟨_, rfl⟩
      · apply ih
        · unfold OnGrid; simp only; omega
        · unfold OnGrid at hg
          cases d <;> simp only [distToEdge, getVector] at hd ⊢ <;> omega

/-- The loop of `move` ends within four iterations from every cell of the grid. -/
theorem walk_isSome (s : MoveState) (d : Direction) (tile : Tile) (r c : Int)
    (hg : OnGrid (r, c)) : ∃ w, walk s (getVector d) tile 4 (r, c) = some w := by
  apply walk_isSome_of_dist s d tile 4 (r, c) hg
  unfold OnGrid at hg
  cases d <;> simp only [distToEdge] <;> simp only at hg <;> omega

/-! ## One step of the traversal keeps the invariant -/

theorem map_id_modifyAt (ts : List Tile) (i : Nat) (f : Tile → Tile)
    (hf : ∀ t, (f t).id = t.id) :
    (modifyAt ts i f).map (fun t => t.id) = ts.map (fun t => t.id) := by
  apply List.ext_getElem?
  intro k
  rw [List.getElem?_map, List.getElem?_map, getElem?_modifyAt]
  split
  · rename_i hk
    subst hk
    cases ts[k]? <;> simp [hf]
  · rfl

theorem applyMerge_tiles (s : MoveState) (r c : Int) (i : Nat) (tile : Tile) (np : Int × Int)
    (j : Nat) (nt : Tile) (ht : s.currentTiles[i]? = some tile)
    (hnt : s.currentTiles[j]? = some nt) (hij : i ≠ j) (k : Nat) :
    (applyMerge s r c i tile np j).currentTiles[k]? =
      if k = i then some { tile with row := np.1, col := np.2 }
      else if k = j then some { nt with value := nt.value * 2, isMerged := true }
      else s.currentTiles[k]? := by
  simp only [applyMerge, hnt, getElem?_modifyAt]
  by_cases hki : k = i
  · subst hki
    simp [hij, ht]
  · simp only [hki, if_false]
    by_cases hkj : k = j
    · subst hkj; simp [hnt]
    · simp [hkj]

theorem applySlide_tiles (s : MoveState) (r c : Int) (i : Nat) (cur : Int × Int) (t1 : Tile)
    (ht : s.currentTiles[i]? = some t1) (k : Nat) :
    (applySlide s r c i cur).currentTiles[k]? =
      if k = i then some { t1 with row := cur.1, col := cur.2 } else s.currentTiles[k]? := by
  simp only [applySlide, getElem?_modifyAt]
  by_cases hki : k = i
  · subst hki; simp [ht]
  · simp [hki]

theorem along_step (d : Direction) (r c : Int) (k : Nat) :
    along d (r + k * (getVector d).1, c + k * (getVector d).2) = along d (r, c) + k := by
  cases d <;> simp only [along, getVector] <;> ring

theorem step_ne (d : Direction) (r c : Int) (k : Nat) (hk : 1 ≤ k) :
    ¬ (r + k * (getVector d).1 = r ∧ c + k * (getVector d).2 = c) := by
  have hk2 : (1 : Int) ≤ k := by exact_mod_cast hk
  cases d <;> simp only [getVector] <;> omega


theorem inv_index_orig {d : Direction} {ts : List Tile} {s : MoveState} (h : Inv d ts s)
    (i : Nat) (t : Tile) (ht : s.currentTiles[i]? = some t) :
    ∃ t0, ts[i]? = some t0 ∧ t0.id = t.id := by
  have h1 : (s.currentTiles.map (fun t => t.id))[i]? = some t.id := by
    rw [List.getElem?_map, ht]; rfl
  rw [h.ids, List.getElem?_map] at h1
  cases h0 : ts[i]? with
  | none => rw [h0] at h1; simp at h1
  | some t0 =>
    rw [h0] at h1
    simp only [Option.map_some', Option.some.injEq] at h1
    exact ⟨t0, rfl, h1⟩

theorem inv_applyMerge {d : Direction} {ts : List Tile} {s : MoveState} (h : Inv d ts s)
    (r c : Int) (i : Nat) (tile : Tile) (k : Nat) (np : Int × Int) (j : Nat) (nt : Tile)
    (hb : s.board r c = some i) (ht : s.currentTiles[i]? = some tile) (hk : 1 ≤ k)
    (hnp : np = (r + k * (getVector d).1, c + k * (getVector d).2))
    (hj : s.board np.1 np.2 = some j) (hnt : s.currentTiles[j]? = some nt)
    (hm : Mergeable s tile nt) (hon : OnGrid np) :
    Inv d ts (applyMerge s r c i tile np j) := by
  obtain ⟨tile2, htile2, hrow, hcol⟩ := h.board_tile r c i hb
  rw [ht] at htile2
  cases htile2
  obtain ⟨nt2, hnt2, hnrow, hncol⟩ := h.board_tile np.1 np.2 j hj
  rw [hnt] at hnt2
  cases hnt2
  have hne : ¬ (np.1 = r ∧ np.2 = c) := by
    rw [hnp]
    exact step_ne d r c k hk
  have hij : i ≠ j := by
    intro hij
    subst hij
    rw [ht] at hnt
    cases hnt
    exact hne ⟨hnrow.symm.trans hrow, hncol.symm.trans hcol⟩
  have htiles := applyMerge_tiles s r c i tile np j nt ht hnt hij
  have hboard : (applyMerge s r c i tile np j).board = s.board.set r c none := by
    simp only [applyMerge, hnt]
  have hmerged : (applyMerge s r c i tile np j).mergedIds = tile.id :: s.mergedIds := by
    simp only [applyMerge, hnt]
  have hmerges : (applyMerge s r c i tile np j).merges = s.merges ++
      [{ absorbed := tile, target := nt,
         result := { nt with value := nt.value * 2, isMerged := true } }] := by
    simp only [applyMerge, hnt]
  have hscore : (applyMerge s r c i tile np j).scoreToAdd = s.scoreToAdd + nt.value * 2 := by
    simp only [applyMerge, hnt]
  have hmoved : (applyMerge s r c i tile np j).moved = true := by
    simp only [applyMerge, hnt]
  refine ⟨?_, ?_, ?_, ?_, ?_, ?_, ?_, ?_, ?_, ?_, ?_, ?_⟩
  · simp only [applyMerge, hnt]
    rw [map_id_modifyAt _ _ _ (by intro t; rfl), map_id_modifyAt _ _ _ (by intro t; rfl)]
    exact h.ids
  · intro r2 c2 i2 hb2
    rw [hboard, Board.set_apply] at hb2
    split at hb2
    · cases hb2
    · rename_i hrc
      obtain ⟨t, ht2, hr2, hc2⟩ := h.board_tile r2 c2 i2 hb2
      have hi2 : i2 ≠ i := by
        intro hi
        subst hi
        rw [ht] at ht2
        cases ht2
        exact hrc ⟨hr2.symm.trans hrow, hc2.symm.trans hcol⟩
      rw [htiles]
      simp only [hi2, if_false]
      split
      · rename_i hi2j
        subst hi2j
        rw [hnt] at ht2
        cases ht2
        exact ⟨_, rfl, hr2, hc2⟩
      · exact ⟨t, ht2, hr2, hc2⟩
  · intro k2 t hk2 hid
    rw [hmerged] at hid
    rw [htiles] at hk2
    rw [hboard, Board.set_apply]
    split at hk2
    · simp only [Option.some.injEq] at hk2
      subst hk2
      simp at hid
    · rename_i hki
      have key : ∀ u : Tile, s.currentTiles[k2]? = some u → u.id ∉ s.mergedIds →
          (if u.row = r ∧ u.col = c then none else s.board u.row u.col) = some k2 := by
        intro u hu huid
        have hbu := h.live_board k2 u hu huid
        split
        · rename_i hrc
          rw [hrc.1, hrc.2, hb] at hbu
          simp only [Option.some.injEq] at hbu
          exact absurd hbu.symm hki
        · exact hbu
      split at hk2
      · rename_i hkj
        subst hkj
        simp only [Option.some.injEq] at hk2
        subst hk2
        exact key nt hnt (fun hx => hid (List.mem_cons_of_mem _ hx))
      · exact key t hk2 (fun hx => hid (List.mem_cons_of_mem _ hx))
  · intro k2 t hk2
    rw [htiles] at hk2
    split at hk2
    · simp only [Option.some.injEq] at hk2
      subst hk2
      exact hon
    · split at hk2
      · simp only [Option.some.injEq] at hk2
        subst hk2
        exact h.in_grid j nt hnt
      · exact h.in_grid k2 t hk2
  · intro m hmem
    rw [hmerged] at hmem
    rcases List.mem_cons.1 hmem with rfl | hmem
    · rw [← h.ids]
      exact List.mem_map.2 ⟨tile, List.getElem?_mem ht, rfl⟩
    · exact h.merged_sub m hmem
  · intro k2 t t0 hk2 h0
    rw [htiles] at hk2
    split at hk2
    · rename_i hki
      subst hki
      simp only [Option.some.injEq] at hk2
      subst hk2
      have := h.mono k2 tile t0 ht h0
      rw [hrow, hcol] at this
      simp only
      rw [hnp, along_step]
      omega
    · split at hk2
      · rename_i hkj
        subst hkj
        simp only [Option.some.injEq] at hk2
        subst hk2
        exact h.mono k2 nt t0 hnt h0
      · exact h.mono k2 t t0 hk2 h0
  · intro _
    left
    rw [hmerges]
    simp
  · intro hf
    rw [hmoved] at hf
    cases hf
  · rw [hscore, hmerges, h.score_eq]
    simp
  · intro e he
    rw [hmerges] at he
    rcases List.mem_append.1 he with he | he
    · exact h.merge_ok e he
    · simp only [List.mem_singleton] at he
      subst he
      exact ⟨hm.1, by simp only; rw [hm.1]; ring⟩
  · rw [hmerged, hmerges, h.merged_eq]
    simp
  · rw [hmerged]
    exact List.nodup_cons.2 ⟨hm.2.2, h.merged_nodup⟩


theorem inv_applySlide {d : Direction} {ts : List Tile} {s : MoveState} (h : Inv d ts s)
    (r c : Int) (i : Nat) (t1 : Tile) (k : Nat) (cur : Int × Int)
    (ht : s.currentTiles[i]? = some t1) (hk : 1 ≤ k)
    (hcur : cur = (r + k * (getVector d).1, c + k * (getVector d).2))
    (hon : OnGrid cur) (hfree : s.board cur.1 cur.2 = none)
    (honly : ∀ (r2 c2 : Int) (i2 : Nat), s.board r2 c2 = some i2 → (i2 = i ↔ (r2 = r ∧ c2 = c)))
    (hal : ∀ t0 : Tile, ts[i]? = some t0 → along d (t0.row, t0.col) ≤ along d (r, c)) :
    Inv d ts (applySlide s r c i cur) := by
  have htiles := applySlide_tiles s r c i cur t1 ht
  have hboard : (applySlide s r c i cur).board
      = (s.board.set r c none).set cur.1 cur.2 (some i) := rfl
  refine ⟨?_, ?_, ?_, ?_, h.merged_sub, ?_, ?_, ?_, h.score_eq, h.merge_ok, h.merged_eq,
    h.merged_nodup⟩
  · simp only [applySlide]
    rw [map_id_modifyAt _ _ _ (by intro t; rfl)]
    exact h.ids
  · intro r2 c2 i2 hb2
    rw [hboard, Board.set_apply, Board.set_apply] at hb2
    split at hb2
    · rename_i hrc
      simp only [Option.some.injEq] at hb2
      subst hb2
      rw [htiles]
      simp only [if_true]
      exact ⟨_, rfl, hrc.1.symm, hrc.2.symm⟩
    · split at hb2
      · cases hb2
      · rename_i hrc
        obtain ⟨t, ht2, hr2, hc2⟩ := h.board_tile r2 c2 i2 hb2
        have hi2 : i2 ≠ i := fun hi => hrc ((honly r2 c2 i2 hb2).1 hi)
        rw [htiles]
        simp only [hi2, if_false]
        exact ⟨t, ht2, hr2, hc2⟩
  · intro k2 t hk2 hid
    rw [htiles] at hk2
    rw [hboard, Board.set_apply, Board.set_apply]
    split at hk2
    · rename_i hki
      simp only [Option.some.injEq] at hk2
      subst hk2
      subst hki
      simp
    · rename_i hki
      have hbt := h.live_board k2 t hk2 hid
      have h1 : ¬ (t.row = cur.1 ∧ t.col = cur.2) := by
        intro hrc
        rw [hrc.1, hrc.2, hfree] at hbt
        cases hbt
      have h2 : ¬ (t.row = r ∧ t.col = c) := fun hrc => hki ((honly _ _ _ hbt).2 hrc)
      simp only [h1, h2, if_false]
      exact hbt
  · intro k2 t hk2
    rw [htiles] at hk2
    split at hk2
    · simp only [Option.some.injEq] at hk2
      subst hk2
      exact hon
    · exact h.in_grid k2 t hk2
  · intro k2 t t0 hk2 h0
    rw [htiles] at hk2
    split at hk2
    · rename_i hki
      subst hki
      simp only [Option.some.injEq] at hk2
      subst hk2
      have := hal t0 h0
      simp only
      rw [hcur, along_step]
      omega
    · exact h.mono k2 t t0 hk2 h0
  · intro _
    right
    obtain ⟨t0, h0, -⟩ := inv_index_orig h i t1 ht
    refine ⟨i, { t1 with row := cur.1, col := cur.2 }, t0, ?_, h0, ?_⟩
    · rw [htiles]; simp only [if_true]
    · have := hal t0 h0
      simp only
      rw [hcur, along_step]
      omega
  · intro hf
    simp [applySlide] at hf

theorem settle_merge_none (s : MoveState) (r c : Int) (i : Nat) (tile : Tile) (w : WalkResult)
    (hw : w.merge = none) :
    settle s r c i tile w =
      if w.currentPos.1 ≠ r ∨ w.currentPos.2 ≠ c then applySlide s r c i w.currentPos else s := by
  simp only [settle, hw]

theorem settle_merge_some (s : MoveState) (r c : Int) (i : Nat) (tile : Tile) (w : WalkResult)
    (np : Int × Int) (j : Nat) (hw : w.merge = some (np, j)) :
    settle s r c i tile w =
      if w.currentPos.1 ≠ r ∨ w.currentPos.2 ≠ c then
        applySlide (applyMerge s r c i tile np j) r c i w.currentPos
      else applyMerge s r c i tile np j := by
  simp only [settle, hw]

/-- One step of the traversal keeps the invariant. -/
theorem inv_processCell {d : Direction} {ts : List Tile} {s : MoveState} (h : Inv d ts s)
    (r c : Int) (hg : OnGrid (r, c)) : Inv d ts (processCell d s r c) := by
  unfold processCell
  cases hb : s.board r c with
  | none => exact h
  | some i =>
    obtain ⟨tile, ht, hrow, hcol⟩ := h.board_tile r c i hb
    obtain ⟨w, hw⟩ := walk_isSome s d tile r c hg
    simp only [ht, hw]
    obtain ⟨k, -, hpos, hbetween, hmerge, -⟩ := walk_spec s _ tile 4 (r, c) w hw
    simp only at hpos hbetween
    have honly : ∀ (r2 c2 : Int) (i2 : Nat), s.board r2 c2 = some i2 →
        (i2 = i ↔ (r2 = r ∧ c2 = c)) := by
      intro r2 c2 i2 hb2
      constructor
      · intro hi
        subst hi
        obtain ⟨t, ht2, hr2, hc2⟩ := h.board_tile r2 c2 i2 hb2
        rw [ht] at ht2
        cases ht2
        exact ⟨hr2.symm.trans hrow, hc2.symm.trans hcol⟩
      · rintro ⟨rfl, rfl⟩
        rw [hb] at hb2
        simpa using hb2.symm
    have hal : ∀ t0 : Tile, ts[i]? = some t0 → along d (t0.row, t0.col) ≤ along d (r, c) := by
      intro t0 h0
      have := h.mono i tile t0 ht h0
      rwa [hrow, hcol] at this
    have hk : (w.currentPos.1 ≠ r ∨ w.currentPos.2 ≠ c) → 1 ≤ k := by
      intro hne
      by_contra hk0
      have : k = 0 := by omega
      subst this
      rw [hpos] at hne
      simp at hne
    cases hwm : w.merge with
    | none =>
      rw [settle_merge_none _ _ _ _ _ _ hwm]
      split
      · rename_i hne
        have hk1 := hk hne
        obtain ⟨hfree, hon⟩ := hbetween k hk1 (le_refl _)
        exact inv_applySlide h r c i tile k w.currentPos ht hk1 hpos (by rw [hpos]; exact hon)
          (by rw [hpos]; exact hfree) honly hal
      · exact h
    | some pj =>
      obtain ⟨np, j⟩ := pj
      obtain ⟨hnp, hon, hj, nt, hnt, hm⟩ := hmerge np j hwm
      have hnp2 : np = (r + ((k + 1 : Nat) : Int) * (getVector d).1,
          c + ((k + 1 : Nat) : Int) * (getVector d).2) := by
        rw [hnp, hpos]
        simp only [Prod.mk.injEq]
        constructor <;> (push_cast; ring)
      have h1 := inv_applyMerge h r c i tile (k + 1) np j nt hb ht (by omega) hnp2 hj hnt hm hon
      rw [settle_merge_some _ _ _ _ _ _ _ _ hwm]
      split
      · rename_i hne
        have hk1 := hk hne
        obtain ⟨hfree, hon2⟩ := hbetween k hk1 (le_refl _)
        have hij : i ≠ j := by
          intro hij
          subst hij
          have hrc := (honly np.1 np.2 i hj).1 rfl
          rw [hnp2] at hrc
          exact step_ne d r c (k + 1) (by omega) hrc
        have hboard : (applyMerge s r c i tile np j).board = s.board.set r c none := by
          simp only [applyMerge, hnt]
        refine inv_applySlide h1 r c i _ k w.currentPos
          ((applyMerge_tiles s r c i tile np j nt ht hnt hij i).trans (by simp only [if_true]; rfl))
          hk1 hpos (by rw [hpos]; exact hon2) ?_ ?_ hal
        · rw [hboard, Board.set_apply]
          split
          · rfl
          · rw [hpos]; exact hfree
        · intro r2 c2 i2 hb2
          rw [hboard, Board.set_apply] at hb2
          split at hb2
          · cases hb2
          · rename_i hrc
            constructor
            · intro hi
              exact absurd ((honly r2 c2 i2 hb2).1 hi) hrc
            · intro hrc2
              exact absurd hrc2 hrc
      · exact h1

/-! ## The invariant holds after the traversal -/

theorem clearFlags_getElem? (tiles : List Tile) (k : Nat) :
    (clearFlags tiles)[k]? =
      (tiles[k]?).map (fun t => { t with isNew := false, isMerged := false }) := by
  simp [clearFlags]

theorem distinctCells_clearFlags (tiles : List Tile) (h : DistinctCells tiles) :
    DistinctCells (clearFlags tiles) := by
  unfold DistinctCells clearFlags at *
  rw [List.map_map]
  exact h

theorem inGrid_clearFlags (tiles : List Tile) (h : InGrid tiles) : InGrid (clearFlags tiles) := by
  intro t ht
  simp only [clearFlags, List.mem_map] at ht
  obtain ⟨u, hu, rfl⟩ := ht
  exact h u hu

/-- The invariant holds before the traversal. -/
theorem inv_initMove (d : Direction) (tiles : List Tile) (hd : DistinctCells tiles)
    (hg : InGrid tiles) : Inv d (clearFlags tiles) (initMove tiles) := by
  have hd2 := distinctCells_clearFlags tiles hd
  have hg2 := inGrid_clearFlags tiles hg
  refine ⟨rfl, ?_, ?_, ?_, ?_, ?_, ?_, ?_, rfl, ?_, rfl, List.nodup_nil⟩
  · intro r c i hb
    simp only [initMove] at hb
    rcases (placeAll_apply _ 0 _ r c hd2 i).1 hb with ⟨t, -, ht, hr, hc⟩ | ⟨hb2, -⟩
    · exact ⟨t, by simpa using ht, hr, hc⟩
    · cases hb2
  · intro i t ht _
    simp only [initMove] at ht ⊢
    exact (placeAll_apply _ 0 _ t.row t.col hd2 i).2 (Or.inl ⟨t, Nat.zero_le _, by simpa using ht, rfl, rfl⟩)
  · intro i t ht
    simp only [initMove] at ht
    exact hg2 t (List.getElem?_mem ht)
  · intro m hm
    simp [initMove] at hm
  · intro k t t0 hk h0
    simp only [initMove] at hk
    rw [hk] at h0
    cases h0
    exact le_refl _
  · intro hm
    simp [initMove] at hm
  · intro _
    exact ⟨rfl, rfl, rfl, rfl⟩
  · intro e he
    simp [initMove] at he

/-- A property that holds before the traversal and is kept by every step at a cell of the
grid holds after the traversal. -/
theorem resolve_induction (P : MoveState → Prop) (d : Direction) (tiles : List Tile)
    (h0 : P (initMove tiles))
    (hstep : ∀ (s : MoveState) (r c : Int), P s → OnGrid (r, c) → P (processCell d s r c)) :
    P (resolve d tiles) := by
  have hrows : ∀ r ∈ (traversals d).1, 0 ≤ r ∧ r < 4 := by
    intro r hr
    cases d <;> simp only [traversals, List.mem_cons, List.mem_singleton, List.not_mem_nil,
      or_false] at hr <;> omega
  have hcols : ∀ c ∈ (traversals d).2, 0 ≤ c ∧ c < 4 := by
    intro c hc
    cases d <;> simp only [traversals, List.mem_cons, List.mem_singleton, List.not_mem_nil,
      or_false] at hc <;> omega
  have inner : ∀ (r : Int), (0 ≤ r ∧ r < 4) → ∀ (cs : List Int), (∀ c ∈ cs, 0 ≤ c ∧ c < 4) →
      ∀ s, P s → P (cs.foldl (fun s c => processCell d s r c) s) := by
    intro r hr cs
    induction cs with
    | nil => intro _ s hs; exact hs
    | cons c cs ih =>
      intro hcs s hs
      rw [List.foldl_cons]
      apply ih (fun c2 hc2 => hcs c2 (List.mem_cons_of_mem _ hc2))
      exact hstep s r c hs ⟨hr.1, hr.2, (hcs c (List.mem_cons_self _ _)).1,
        (hcs c (List.mem_cons_self _ _)).2⟩
  have outer : ∀ (rs : List Int), (∀ r ∈ rs, 0 ≤ r ∧ r < 4) → ∀ s, P s →
      P (rs.foldl (fun s r => (traversals d).2.foldl (fun s c => processCell d s r c) s) s) := by
    intro rs
    induction rs with
    | nil => intro _ s hs; exact hs
    | cons r rs ih =>
      intro hrs s hs
      rw [List.foldl_cons]
      apply ih (fun r2 hr2 => hrs r2 (List.mem_cons_of_mem _ hr2))
      exact inner r (hrs r (List.mem_cons_self _ _)) _ hcols s hs
  exact outer _ hrows _ h0

/-- The invariant holds after the traversal. -/
theorem inv_resolve (d : Direction) (tiles : List Tile) (hd : DistinctCells tiles)
    (hg : InGrid tiles) : Inv d (clearFlags tiles) (resolve d tiles) :=
  resolve_induction _ d tiles (inv_initMove d tiles hd hg)
    (fun _ r c hs hrc => inv_processCell hs r c hrc)

/-! ## The steps of the traversal, and what needs distinct ids -/

/-- What one step of the traversal does to a state that satisfies the invariant: nothing,
or a slide of the tile at `(r, c)` by `k ≥ 1` cells over empty cells, or a merge of that
tile into the tile `k + 1` cells ahead, after a slide by `k ≥ 0` cells. -/
theorem processCell_cases {d : Direction} {ts : List Tile} {s : MoveState} (h : Inv d ts s)
    (r c : Int) (hg : OnGrid (r, c)) :
    processCell d s r c = s ∨
    (∃ (i : Nat) (tile : Tile) (k : Nat),
      s.board r c = some i ∧ s.currentTiles[i]? = some tile ∧ 1 ≤ k ∧
      processCell d s r c
        = applySlide s r c i (r + k * (getVector d).1, c + k * (getVector d).2)) ∨
    (∃ (i : Nat) (tile : Tile) (k : Nat) (np : Int × Int) (j : Nat) (nt : Tile),
      s.board r c = some i ∧ s.currentTiles[i]? = some tile ∧
      np = (r + ((k + 1 : Nat) : Int) * (getVector d).1,
            c + ((k + 1 : Nat) : Int) * (getVector d).2) ∧
      s.board np.1 np.2 = some j ∧ s.currentTiles[j]? = some nt ∧ i ≠ j ∧
      Mergeable s tile nt ∧
      processCell d s r c =
        if k = 0 then applyMerge s r c i tile np j
        else applySlide (applyMerge s r c i tile np j) r c i
          (r + k * (getVector d).1, c + k * (getVector d).2)) := by
  unfold processCell
  cases hb : s.board r c with
  | none => exact Or.inl rfl
  | some i =>
    obtain ⟨tile, ht, hrow, hcol⟩ := h.board_tile r c i hb
    obtain ⟨w, hw⟩ := walk_isSome s d tile r c hg
    simp only [ht, hw]
    obtain ⟨k, -, hpos, -, hmerge, -⟩ := walk_spec s _ tile 4 (r, c) w hw
    simp only at hpos
    have hk : (w.currentPos.1 ≠ r ∨ w.currentPos.2 ≠ c) ↔ k ≠ 0 := by
      constructor
      · intro hne hk0
        subst hk0
        rw [hpos] at hne
        simp at hne
      · intro hk0
        by_contra hcon
        push_neg at hcon
        rw [hpos] at hcon
        exact step_ne d r c k (by omega) hcon
    cases hwm : w.merge with
    | none =>
      rw [settle_merge_none _ _ _ _ _ _ hwm]
      by_cases hk0 : k = 0
      · left
        rw [if_neg]
        exact fun hne => hk.1 hne hk0
      · right; left
        rw [if_pos (hk.2 hk0), hpos]
        exact ⟨i, tile, k, rfl, ht, by omega, rfl⟩
    | some pj =>
      obtain ⟨np, j⟩ := pj
      obtain ⟨hnp, -, hj, nt, hnt, hm⟩ := hmerge np j hwm
      have hnp2 : np = (r + ((k + 1 : Nat) : Int) * (getVector d).1,
          c + ((k + 1 : Nat) : Int) * (getVector d).2) := by
        rw [hnp, hpos]
        simp only [Prod.mk.injEq]
        constructor <;> (push_cast; ring)
      have hij : i ≠ j := by
        intro hij
        subst hij
        obtain ⟨t2, ht2, hr2, hc2⟩ := h.board_tile np.1 np.2 i hj
        rw [ht] at ht2
        cases ht2
        have hrc : np.1 = r ∧ np.2 = c := ⟨hr2.symm.trans hrow, hc2.symm.trans hcol⟩
        rw [hnp2] at hrc
        exact step_ne d r c (k + 1) (by omega) hrc
      right; right
      refine ⟨i, tile, k, np, j, nt, rfl, ht, hnp2, hj, hnt, hij, hm, ?_⟩
      rw [settle_merge_some _ _ _ _ _ _ _ _ hwm]
      by_cases hk0 : k = 0
      · rw [if_neg (fun hne => hk.1 hne hk0), if_pos hk0]
      · rw [if_pos (hk.2 hk0), if_neg hk0, hpos]

theorem removedScore_eq_filter (ids : List Nat) (tiles : List Tile) :
    removedScore ids tiles
      = ((tiles.filter (fun t => decide (t.id ∈ ids))).map (fun t => 2 * t.value)).sum := by
  unfold removedScore
  induction tiles with
  | nil => rfl
  | cons t tiles ih =>
    by_cases ht : t.id ∈ ids
    · simp [List.filter_cons, ht, ih]
    · simp [List.filter_cons, ht, ih]

theorem map_modifyAt_eq {β : Type} (g : Tile → β) (ts : List Tile) (i : Nat) (f : Tile → Tile)
    (hf : ∀ t, ts[i]? = some t → g (f t) = g t) :
    (modifyAt ts i f).map g = ts.map g := by
  apply List.ext_getElem?
  intro k
  rw [List.getElem?_map, List.getElem?_map, getElem?_modifyAt]
  split
  · rename_i hk
    subst hk
    cases hti : ts[k]? with
    | none => rfl
    | some t => simp [hf t hti]
  · rfl

theorem removedScore_cons (ids : List Nat) (tiles : List Tile) (i : Nat) (tile : Tile)
    (hn : (tiles.map (fun t => t.id)).Nodup) (ht : tiles[i]? = some tile)
    (hid : tile.id ∉ ids) :
    removedScore (tile.id :: ids) tiles = removedScore ids tiles + 2 * tile.value := by
  unfold removedScore
  induction tiles generalizing i with
  | nil => simp at ht
  | cons a tiles ih =>
    simp only [List.map_cons, List.nodup_cons, List.mem_map, not_exists, not_and] at hn
    cases i with
    | zero =>
      simp only [List.getElem?_cons_zero, Option.some.injEq] at ht
      subst ht
      have hrest : tiles.map (fun t => if t.id ∈ a.id :: ids then 2 * t.value else 0)
          = tiles.map (fun t => if t.id ∈ ids then 2 * t.value else 0) := by
        apply List.map_congr_left
        intro t htm
        have hne : t.id ≠ a.id := hn.1 t htm
        simp [hne]
      rw [List.map_cons, List.map_cons, List.sum_cons, List.sum_cons, hrest]
      simp only [List.mem_cons, true_or, if_true, hid, if_false]
      omega
    | succ i =>
      simp only [List.getElem?_cons_succ] at ht
      have hne : a.id ≠ tile.id := fun he => hn.1 tile (List.getElem?_mem ht) he.symm
      have := ih i hn.2 ht
      rw [List.map_cons, List.map_cons, List.sum_cons, List.sum_cons, this]
      simp only [List.mem_cons, hne, false_or]
      omega


theorem invIds_applySlide {ts : List Tile} {s : MoveState} (h2 : InvIds ts s) (r c : Int)
    (i : Nat) (cur : Int × Int) (t1 : Tile) (ht : s.currentTiles[i]? = some t1) :
    InvIds ts (applySlide s r c i cur) := by
  constructor
  · have := h2.removed
    simp only [applySlide, removedScore] at this ⊢
    rw [map_modifyAt_eq _ _ _ _ (by intro t _; rfl)]
    exact this
  · intro hne
    obtain ⟨k, t, hk, hid⟩ := h2.survivor hne
    by_cases hki : k = i
    · subst hki
      rw [ht] at hk
      simp only [Option.some.injEq] at hk
      subst hk
      exact ⟨k, { t1 with row := cur.1, col := cur.2 },
        by rw [applySlide_tiles s r c k cur t1 ht]; simp, hid⟩
    · exact ⟨k, t, by rw [applySlide_tiles s r c i cur t1 ht]; simp [hki, hk], hid⟩

theorem invIds_applyMerge {ts : List Tile} {s : MoveState} (h2 : InvIds ts s)
    (hn : (s.currentTiles.map (fun t => t.id)).Nodup) (r c : Int) (i : Nat) (tile : Tile)
    (np : Int × Int) (j : Nat) (nt : Tile) (ht : s.currentTiles[i]? = some tile)
    (hnt : s.currentTiles[j]? = some nt) (hij : i ≠ j) (hm : Mergeable s tile nt) :
    InvIds ts (applyMerge s r c i tile np j) := by
  have hidne : nt.id ≠ tile.id := by
    intro he
    have h1 : (s.currentTiles.map (fun t => t.id))[i]? = some tile.id := by
      rw [List.getElem?_map, ht]; rfl
    have h2 : (s.currentTiles.map (fun t => t.id))[j]? = some tile.id := by
      rw [List.getElem?_map, hnt, ← he]; rfl
    obtain ⟨hi, hi2⟩ := List.getElem?_eq_some.1 h1
    obtain ⟨hj, hj2⟩ := List.getElem?_eq_some.1 h2
    exact hij ((List.Nodup.getElem_inj_iff hn).1 (hi2.trans hj2.symm))
  constructor
  · simp only [applyMerge, hnt, removedScore]
    rw [map_modifyAt_eq _ _ _ _ (by intro t _; rfl), map_modifyAt_eq]
    · have := removedScore_cons s.mergedIds s.currentTiles i tile hn ht hm.2.2
      unfold removedScore at this
      rw [this, ← removedScore, ← h2.removed, hm.1]
      omega
    · intro t htj
      rw [hnt] at htj
      simp only [Option.some.injEq] at htj
      subst htj
      have h1 : nt.id ∉ tile.id :: s.mergedIds := by
        intro hmem
        rcases List.mem_cons.1 hmem with he | hmem
        · exact hidne he
        · exact hm.2.1 hmem
      simp only [h1, if_false]
  · intro _
    refine ⟨j, { nt with value := nt.value * 2, isMerged := true }, ?_, ?_⟩
    · rw [applyMerge_tiles s r c i tile np j nt ht hnt hij]
      have hji : ¬ j = i := fun he => hij he.symm
      simp only [hji, if_false, if_true]
    · simp only [applyMerge, hnt]
      intro hmem
      rcases List.mem_cons.1 hmem with he | hmem
      · exact hidne he
      · exact hm.2.1 hmem

theorem invIds_processCell {d : Direction} {ts : List Tile} {s : MoveState} (h : Inv d ts s)
    (hn : DistinctIds ts) (h2 : InvIds ts s) (r c : Int) (hg : OnGrid (r, c)) :
    InvIds ts (processCell d s r c) := by
  have hn2 : (s.currentTiles.map (fun t => t.id)).Nodup := by rw [h.ids]; exact hn
  rcases processCell_cases h r c hg with he | ⟨i, tile, k, -, ht, -, he⟩ |
    ⟨i, tile, k, np, j, nt, -, ht, -, -, hnt, hij, hm, he⟩
  · rw [he]; exact h2
  · rw [he]; exact invIds_applySlide h2 r c i _ tile ht
  · rw [he]
    have h3 := invIds_applyMerge h2 hn2 r c i tile np j nt ht hnt hij hm
    split
    · exact h3
    · exact invIds_applySlide h3 r c i _ _
        ((applyMerge_tiles s r c i tile np j nt ht hnt hij i).trans (if_pos rfl))

theorem invIds_resolve (d : Direction) (tiles : List Tile) (hd : DistinctCells tiles)
    (hg : InGrid tiles) (hn : DistinctIds tiles) :
    InvIds (clearFlags tiles) (resolve d tiles) := by
  have hn2 : DistinctIds (clearFlags tiles) := by
    unfold DistinctIds clearFlags at *
    rw [List.map_map]
    exact hn
  have key := resolve_induction
    (fun s => Inv d (clearFlags tiles) s ∧ InvIds (clearFlags tiles) s) d tiles
    ⟨inv_initMove d tiles hd hg, ?_⟩
    (fun s r c hs hrc => ⟨inv_processCell hs.1 r c hrc, invIds_processCell hs.1 hn2 hs.2 r c hrc⟩)
  · exact key.2
  · constructor
    · simp [initMove, removedScore]
    · intro hne
      obtain ⟨t, ht⟩ := List.exists_mem_of_ne_nil _ hne
      obtain ⟨k, hk⟩ := List.mem_iff_getElem?.1 ht
      exact ⟨k, t, hk, by simp [initMove]⟩

/-! ## The `moved` flag and the score delta -/

theorem along_lt_ne (d : Direction) (p q : Int × Int) (h : along d p < along d q) :
    q.1 ≠ p.1 ∨ q.2 ≠ p.2 := by
  by_contra hc
  push_neg at hc
  unfold along at h
  rw [hc.1, hc.2] at h
  exact lt_irrefl _ h

theorem survivors_length_lt (d : Direction) (tiles : List Tile) (hd : DistinctCells tiles)
    (hg : InGrid tiles) (hm : (resolve d tiles).mergedIds ≠ []) :
    (survivors d tiles).length < tiles.length := by
  have h := inv_resolve d tiles hd hg
  obtain ⟨m, hmem⟩ := List.exists_mem_of_ne_nil _ hm
  have hm2 := h.merged_sub m hmem
  rw [← h.ids] at hm2
  obtain ⟨t, ht, hid⟩ := List.mem_map.1 hm2
  have hlen : (resolve d tiles).currentTiles.length = tiles.length := by
    have := congrArg List.length h.ids
    simpa [clearFlags] using this
  rw [← hlen]
  unfold survivors
  apply List.length_filter_lt_length_iff_exists.2
  exact ⟨t, ht, by simp only [decide_eq_true_eq, not_not]; rw [hid]; exact hmem⟩

/-- C4: for tiles in distinct cells of the grid and every direction, `moved` is true if
and only if some tile's row or column after the traversal differs from the one it had
before, or at least one merge occurred; and `moved` is false if and only if the tiles
kept by the move are the input tiles (all of them, with their ids, values and cells),
with the flags cleared. -/
theorem moved_iff_changed (d : Direction) (tiles : List Tile) (hd : DistinctCells tiles)
    (hg : InGrid tiles) :
    ((resolve d tiles).moved = true ↔
      (∃ (k : Nat) (t0 t : Tile), tiles[k]? = some t0 ∧
          (resolve d tiles).currentTiles[k]? = some t ∧ (t.row ≠ t0.row ∨ t.col ≠ t0.col)) ∨
        (resolve d tiles).merges ≠ []) ∧
    ((resolve d tiles).moved = false ↔ survivors d tiles = clearFlags tiles) := by
  have h := inv_resolve d tiles hd hg
  have hmm : (resolve d tiles).merges = [] ↔ (resolve d tiles).mergedIds = [] := by
    rw [h.merged_eq]
    simp
  constructor
  · constructor
    · intro hm
      rcases h.moved_imp hm with hmer | ⟨k, t, t0, hk, h0, hlt⟩
      · exact Or.inr hmer
      · left
        rw [clearFlags_getElem?] at h0
        cases h1 : tiles[k]? with
        | none => rw [h1] at h0; cases h0
        | some u =>
          rw [h1] at h0
          simp only [Option.map_some', Option.some.injEq] at h0
          subst h0
          exact ⟨k, u, t, h1, hk, along_lt_ne d _ _ hlt⟩
    · intro hch
      by_contra hm
      have hm2 : (resolve d tiles).moved = false := by simpa using hm
      obtain ⟨hts, -, hmer, -⟩ := h.not_moved hm2
      rcases hch with ⟨k, t0, t, h0, hk, hne⟩ | hne
      · rw [hts, clearFlags_getElem?, h0] at hk
        simp only [Option.map_some', Option.some.injEq] at hk
        subst hk
        simp at hne
      · exact hne hmer
  · constructor
    · intro hm
      obtain ⟨hts, hids, -, -⟩ := h.not_moved hm
      unfold survivors
      rw [hids, hts]
      simp
    · intro hs
      by_contra hm
      have hm2 : (resolve d tiles).moved = true := by simpa using hm
      by_cases hmer : (resolve d tiles).mergedIds = []
      · have hcur : (resolve d tiles).currentTiles = clearFlags tiles := by
          unfold survivors at hs
          rw [hmer] at hs
          simpa using hs
        rcases h.moved_imp hm2 with hne | ⟨k, t, t0, hk, h0, hlt⟩
        · exact hne (hmm.2 hmer)
        · rw [hcur, h0] at hk
          cases hk
          exact lt_irrefl _ hlt
      · have := survivors_length_lt d tiles hd hg hmer
        rw [hs] at this
        simp [clearFlags] at this


theorem moved_iff_changed_witness :
    DistinctCells row224 ∧ InGrid row224 ∧ (resolve .left row224).merges ≠ [] ∧
      (resolve .left row224).moved = true :=
  ⟨by decide, by decide, by decide,
    (moved_iff_changed .left row224 (by decide) (by decide)).1.2 (Or.inr (by decide))⟩

/-- C3: for tiles in distinct cells of the grid and every direction, every merge of the
traversal runs into a tile of the value of the sliding tile and sets that tile's value to
exactly twice the value of the absorbed (sliding) tile; the score delta is the sum over
the merges of the doubled value, which is the sum over the absorbed tiles of twice their
value; and, the ids being distinct, it is the sum of twice the value over the tiles that
the move removes (those whose id is in `mergedIds`). -/
theorem merge_doubles_and_scores (d : Direction) (tiles : List Tile) (hd : DistinctCells tiles)
    (hg : InGrid tiles) :
    (∀ e ∈ (resolve d tiles).merges,
        e.target.value = e.absorbed.value ∧ e.result.value = 2 * e.absorbed.value) ∧
      (resolve d tiles).scoreToAdd
        = ((resolve d tiles).merges.map (fun e => e.result.value)).sum ∧
      (resolve d tiles).scoreToAdd
        = ((resolve d tiles).merges.map (fun e => 2 * e.absorbed.value)).sum ∧
      (DistinctIds tiles →
        (resolve d tiles).scoreToAdd
          = (((resolve d tiles).currentTiles.filter
                (fun t => decide (t.id ∈ (resolve d tiles).mergedIds))).map
              (fun t => 2 * t.value)).sum) := by
  have h := inv_resolve d tiles hd hg
  refine ⟨h.merge_ok, h.score_eq, ?_, ?_⟩
  · rw [h.score_eq]
    congr 1
    apply List.map_congr_left
    intro e he
    exact (h.merge_ok e he).2
  · intro hn
    rw [← removedScore_eq_filter]
    exact (invIds_resolve d tiles hd hg hn).removed

theorem merge_doubles_and_scores_witness :
    DistinctCells row224 ∧ InGrid row224 ∧ DistinctIds row224 ∧
      (resolve .left row224).scoreToAdd
        = (((resolve .left row224).currentTiles.filter
              (fun t => decide (t.id ∈ (resolve .left row224).mergedIds))).map
            (fun t => 2 * t.value)).sum :=
  ⟨by decide, by decide, by decide,
    (merge_doubles_and_scores .left row224 (by decide) (by decide)).2.2.2 (by decide)⟩
/-! ## The tiles after a move, and the game-over check -/

theorem survivors_distinctCells (d : Direction) (tiles : List Tile) (hd : DistinctCells tiles)
    (hg : InGrid tiles) : DistinctCells (survivors d tiles) := by
  have h := inv_resolve d tiles hd hg
  unfold DistinctCells survivors List.Nodup
  rw [List.pairwise_map, List.pairwise_filter, List.pairwise_iff_getElem]
  intro i j hi hj hij h1 h2 heq
  have hb1 := h.live_board i _ (List.getElem?_eq_getElem hi) h1
  have hb2 := h.live_board j _ (List.getElem?_eq_getElem hj) h2
  simp only [cellOf, Prod.mk.injEq] at heq
  rw [heq.1, heq.2, hb2] at hb1
  simp only [Option.some.injEq] at hb1
  omega

theorem survivors_inGrid (d : Direction) (tiles : List Tile) (hd : DistinctCells tiles)
    (hg : InGrid tiles) : InGrid (survivors d tiles) := by
  have h := inv_resolve d tiles hd hg
  intro t ht
  unfold survivors at ht
  obtain ⟨k, hk⟩ := List.mem_iff_getElem?.1 (List.mem_filter.1 ht).1
  exact h.in_grid k t hk

theorem emptyCells_nil_length : (emptyCells []).length = 16 := by decide

theorem emptyCells_nil_nodup : (emptyCells []).Nodup := by decide

/-- Tiles in distinct cells of the grid are at most 16. -/
theorem length_le_sixteen (tiles : List Tile) (hd : DistinctCells tiles) (hg : InGrid tiles) :
    tiles.length ≤ 16 := by
  have hsub : tiles.map cellOf ⊆ emptyCells [] := by
    intro p hp
    obtain ⟨t, ht, rfl⟩ := List.mem_map.1 hp
    exact (mem_emptyCells [] _).2 ⟨hg t ht, by simp⟩
  have := (List.Nodup.subperm hd hsub).length_le
  rw [emptyCells_nil_length, List.length_map] at this
  exact this

/-- Fewer than 16 tiles leave a cell of the grid empty. -/
theorem hasEmptyCell_of_length_lt (tiles : List Tile) (hlen : tiles.length < 16) :
    HasEmptyCell tiles := by
  by_contra hne
  have hsub : emptyCells [] ⊆ tiles.map cellOf := by
    intro p hp
    obtain ⟨hon, -⟩ := (mem_emptyCells [] p).1 hp
    by_contra hnot
    apply hne
    refine ⟨p.1, p.2, hon.1, hon.2.1, hon.2.2.1, hon.2.2.2, ?_⟩
    intro t ht hrc
    apply hnot
    exact List.mem_map.2 ⟨t, ht, by simp [cellOf, hrc.1, hrc.2]⟩
  have := (List.Nodup.subperm emptyCells_nil_nodup hsub).length_le
  rw [emptyCells_nil_length, List.length_map] at this
  omega

theorem addRandomTile_full (rnd : Nat → Nat) (idCounter drawn : Nat) (tiles : List Tile)
    (h : ¬ HasEmptyCell tiles) :
    addRandomTile rnd idCounter drawn tiles = (tiles, idCounter, drawn) := by
  have hnil : emptyCells tiles = [] := by
    apply List.eq_nil_iff_forall_not_mem.2
    intro p hp
    obtain ⟨hon, hfree⟩ := (mem_emptyCells tiles p).1 hp
    exact h ⟨p.1, p.2, hon.1, hon.2.1, hon.2.2.1, hon.2.2.2, hfree⟩
  unfold addRandomTile
  simp [hnil]

theorem addRandomTile_distinctCells (rnd : Nat → Nat) (idCounter drawn : Nat)
    (tiles : List Tile) (hd : DistinctCells tiles) (hg : InGrid tiles) :
    DistinctCells (addRandomTile rnd idCounter drawn tiles).1 ∧
      InGrid (addRandomTile rnd idCounter drawn tiles).1 := by
  by_cases he : HasEmptyCell tiles
  · obtain ⟨t, ht, -, hsp⟩ := addRandomTile_spec rnd idCounter drawn tiles he
    rw [ht]
    obtain ⟨-, -, -, h1, h2, h3, h4, hfree⟩ := hsp
    constructor
    · unfold DistinctCells at hd ⊢
      simp only [List.map_append, List.map_cons, List.map_nil]
      rw [List.nodup_append]
      refine ⟨hd, List.nodup_singleton _, ?_⟩
      intro p hp hp2
      simp only [List.mem_singleton] at hp2
      subst hp2
      obtain ⟨u, hu, hcell⟩ := List.mem_map.1 hp
      simp only [cellOf, Prod.mk.injEq] at hcell
      exact hfree u hu hcell
    · intro u hu
      rcases List.mem_append.1 hu with hu | hu
      · exact hg u hu
      · simp only [List.mem_singleton] at hu
        subst hu
        exact ⟨h1, h2, h3, h4⟩
  · rw [addRandomTile_full rnd idCounter drawn tiles he]
    exact ⟨hd, hg⟩

theorem find_cell (tiles : List Tile) (hd : DistinctCells tiles) (b : Tile) (hb : b ∈ tiles) :
    tiles.find? (fun nt => decide (nt.row = b.row ∧ nt.col = b.col)) = some b := by
  cases hf : tiles.find? (fun nt => decide (nt.row = b.row ∧ nt.col = b.col)) with
  | none =>
    rw [List.find?_eq_none] at hf
    have := hf b hb
    simp at this
  | some b2 =>
    have hmem := List.mem_of_find?_eq_some hf
    have hp := List.find?_some hf
    simp only [decide_eq_true_eq] at hp
    have : b2 = b := List.inj_on_of_nodup_map hd hmem hb (by simp [cellOf, hp.1, hp.2])
    rw [this]

theorem adjacent_iff (a b : Tile) :
    Adjacent a b ↔ ∃ dir ∈ directions,
      b.row = a.row + (getVector dir).1 ∧ b.col = a.col + (getVector dir).2 := by
  unfold Adjacent directions
  simp only [List.mem_cons, List.mem_singleton, List.not_mem_nil, or_false, exists_eq_or_imp,
    exists_eq_left, getVector]
  omega

/-- The `canMove` loop finds a pair of equal tiles in cells that share an edge exactly
when there is one. -/
theorem canMove_iff (tiles : List Tile) (hd : DistinctCells tiles) (hg : InGrid tiles) :
    canMove tiles = true ↔
      ∃ a ∈ tiles, ∃ b ∈ tiles, Adjacent a b ∧ a.value = b.value := by
  unfold canMove
  simp only [List.any_eq_true, Bool.and_eq_true, decide_eq_true_eq]
  constructor
  · rintro ⟨a, ha, dir, hdir, hon, hfind⟩
    split at hfind
    · rename_i nb hnb
      have hmem := List.mem_of_find?_eq_some hnb
      have hp := List.find?_some hnb
      simp only [decide_eq_true_eq] at hp hfind
      exact ⟨a, ha, nb, hmem, (adjacent_iff a nb).2 ⟨dir, hdir, hp.1, hp.2⟩, hfind.symm⟩
    · cases hfind
  · rintro ⟨a, ha, b, hb, hadj, hval⟩
    obtain ⟨dir, hdir, hr, hc⟩ := (adjacent_iff a b).1 hadj
    refine ⟨a, ha, dir, hdir, ?_, ?_⟩
    · have := hg b hb
      rw [← hr, ← hc]
      omega
    · rw [← hr, ← hc, find_cell tiles hd b hb]
      simp [hval]

theorem move_accepted (rnd : Nat → Nat) (d : Direction) (s : Session)
    (hgo : s.gameOver = false) (hm : (resolve d s.tiles).moved = true) :
    move rnd d s =
      { tiles := (addRandomTile rnd s.idCounter s.drawn (survivors d s.tiles)).1,
        score := s.score + (resolve d s.tiles).scoreToAdd,
        gameOver :=
          !decide ((addRandomTile rnd s.idCounter s.drawn (survivors d s.tiles)).1.length < 16)
            && !canMove (addRandomTile rnd s.idCounter s.drawn (survivors d s.tiles)).1,
        idCounter := (addRandomTile rnd s.idCounter s.drawn (survivors d s.tiles)).2.1,
        drawn := (addRandomTile rnd s.idCounter s.drawn (survivors d s.tiles)).2.2 } := by
  unfold move survivors
  simp only [hgo, hm, Bool.false_eq_true, if_false, if_true]
  congr 1
  cases (!decide ((addRandomTile rnd s.idCounter s.drawn
      (List.filter (fun t => decide (t.id ∉ (resolve d s.tiles).mergedIds))
        (resolve d s.tiles).currentTiles)).1.length < 16) &&
    !canMove (addRandomTile rnd s.idCounter s.drawn
      (List.filter (fun t => decide (t.id ∉ (resolve d s.tiles).mergedIds))
        (resolve d s.tiles).currentTiles)).1) <;> simp

/-- C7: for a move with `gameOver = false` beforehand and `moved = true`, on tiles in
distinct cells of the grid, `gameOver` is true afterwards if and only if the tiles after
the spawn are 16 and no two of them in cells that share an edge have equal values;
otherwise it is false as before. -/
theorem gameOver_after_move_iff (rnd : Nat → Nat) (d : Direction) (s : Session)
    (hgo : s.gameOver = false) (hm : (resolve d s.tiles).moved = true)
    (hd : DistinctCells s.tiles) (hg : InGrid s.tiles) :
    (move rnd d s).gameOver = true ↔
      ((move rnd d s).tiles.length = 16 ∧
        ∀ a ∈ (move rnd d s).tiles, ∀ b ∈ (move rnd d s).tiles,
          Adjacent a b → a.value ≠ b.value) := by
  rw [move_accepted rnd d s hgo hm]
  simp only
  obtain ⟨hd2, hg2⟩ := addRandomTile_distinctCells rnd s.idCounter s.drawn _
    (survivors_distinctCells d s.tiles hd hg) (survivors_inGrid d s.tiles hd hg)
  have hle := length_le_sixteen _ hd2 hg2
  have hcan := canMove_iff _ hd2 hg2
  simp only [Bool.and_eq_true, Bool.not_eq_true', decide_eq_false_iff_not, not_lt]
  constructor
  · rintro ⟨h16, hno⟩
    refine ⟨by omega, ?_⟩
    intro a ha b hb hadj hval
    have := hcan.2 ⟨a, ha, b, hb, hadj, hval⟩
    rw [hno] at this
    cases this
  · rintro ⟨h16, hno⟩
    refine ⟨by omega, ?_⟩
    by_contra hc
    have hc2 : canMove (addRandomTile rnd s.idCounter s.drawn (survivors d s.tiles)).1 = true := by
      simpa using hc
    obtain ⟨a, ha, b, hb, hadj, hval⟩ := hcan.1 hc2
    exact hno a ha b hb hadj hval


theorem gameOver_after_move_iff_witness :
    session224.gameOver = false ∧ (resolve .left session224.tiles).moved = true ∧
      DistinctCells session224.tiles ∧ InGrid session224.tiles ∧
      ((move quarterStream .left session224).gameOver = true ↔
        ((move quarterStream .left session224).tiles.length = 16 ∧
          ∀ a ∈ (move quarterStream .left session224).tiles,
            ∀ b ∈ (move quarterStream .left session224).tiles,
              Adjacent a b → a.value ≠ b.value)) :=
  ⟨by decide, by decide, by decide, by decide,
    gameOver_after_move_iff quarterStream .left session224 (by decide) (by decide) (by decide)
      (by decide)⟩
/-! ## The invariant of the sessions -/

theorem survivors_ids_sublist (d : Direction) (tiles : List Tile) (hd : DistinctCells tiles)
    (hg : InGrid tiles) :
    ((survivors d tiles).map (fun t => t.id)).Sublist (tiles.map (fun t => t.id)) := by
  have h := inv_resolve d tiles hd hg
  have h1 : ((survivors d tiles).map (fun t => t.id)).Sublist
      ((resolve d tiles).currentTiles.map (fun t => t.id)) :=
    List.Sublist.map _ (List.filter_sublist _)
  rw [h.ids] at h1
  simpa [clearFlags] using h1

theorem survivors_length_pos (d : Direction) (tiles : List Tile) (hd : DistinctCells tiles)
    (hg : InGrid tiles) (hn : DistinctIds tiles) (hne : tiles ≠ []) :
    1 ≤ (survivors d tiles).length := by
  have h2 := invIds_resolve d tiles hd hg hn
  obtain ⟨k, t, hk, hid⟩ := h2.survivor (by simpa [clearFlags] using hne)
  have hmem : t ∈ survivors d tiles := by
    unfold survivors
    exact List.mem_filter.2 ⟨List.getElem?_mem hk, by simpa using hid⟩
  exact List.length_pos_of_mem hmem

theorem survivors_eq_of_no_merge (d : Direction) (tiles : List Tile)
    (hm : (resolve d tiles).mergedIds = []) :
    survivors d tiles = (resolve d tiles).currentTiles := by
  unfold survivors
  rw [hm]
  simp

/-- An accepted move keeps the invariant of the sessions. -/
theorem sessionInv_move (rnd : Nat → Nat) (d : Direction) (s : Session) (h : SessionInv s) :
    SessionInv (move rnd d s) := by
  by_cases hgo : s.gameOver = true
  · have : move rnd d s = s := by simp [move, hgo]
    rw [this]; exact h
  by_cases hm : (resolve d s.tiles).moved = true
  swap
  · have : move rnd d s = s := by simp [move, hm]
    rw [this]; exact h
  have hgo2 : s.gameOver = false := by simpa using hgo
  rw [move_accepted rnd d s hgo2 hm]
  have hsd := survivors_distinctCells d s.tiles h.cells h.grid
  have hsg := survivors_inGrid d s.tiles h.cells h.grid
  have hsub := survivors_ids_sublist d s.tiles h.cells h.grid
  have hne : s.tiles ≠ [] := by
    intro he
    have := h.two_le
    rw [he] at this
    simp at this
  have hpos := survivors_length_pos d s.tiles h.cells h.grid h.ids hne
  have hsn : DistinctIds (survivors d s.tiles) := List.Nodup.sublist hsub h.ids
  have hslt : ∀ t ∈ survivors d s.tiles, t.id < s.idCounter := by
    intro t ht
    have : t.id ∈ s.tiles.map (fun t => t.id) :=
      hsub.subset (List.mem_map.2 ⟨t, ht, rfl⟩)
    obtain ⟨u, hu, hid⟩ := List.mem_map.1 this
    rw [← hid]
    exact h.ids_lt u hu
  obtain ⟨hd2, hg2⟩ := addRandomTile_distinctCells rnd s.idCounter s.drawn _ hsd hsg
  have hle := length_le_sixteen _ hd2 hg2
  have hinv := inv_resolve d s.tiles h.cells h.grid
  by_cases he : HasEmptyCell (survivors d s.tiles)
  · obtain ⟨t, ht, hid, -⟩ := addRandomTile_spec rnd s.idCounter s.drawn _ he
    rw [ht] at hd2 hg2 hle
    simp only [ht]
    refine ⟨hd2, hg2, ?_, hle, ?_, ?_⟩
    · simp only [List.length_append, List.length_singleton]
      omega
    · unfold DistinctIds at hsn ⊢
      simp only [List.map_append, List.map_cons, List.map_nil]
      rw [List.nodup_append]
      refine ⟨hsn, List.nodup_singleton _, ?_⟩
      intro m hm1 hm2
      simp only [List.mem_singleton] at hm2
      subst hm2
      obtain ⟨u, hu, hid2⟩ := List.mem_map.1 hm1
      have := hslt u hu
      omega
    · intro u hu
      show u.id < s.idCounter + 1
      rcases List.mem_append.1 hu with hu | hu
      · have := hslt u hu
        omega
      · simp only [List.mem_singleton] at hu
        subst hu
        omega
  · have hfull := addRandomTile_full rnd s.idCounter s.drawn _ he
    rw [hfull] at hd2 hg2 hle
    simp only [hfull]
    refine ⟨hd2, hg2, ?_, hle, hsn, hslt⟩
    by_cases hmer : (resolve d s.tiles).mergedIds = []
    · rw [survivors_eq_of_no_merge d s.tiles hmer]
      have hlen : (resolve d s.tiles).currentTiles.length = s.tiles.length := by
        have := congrArg List.length hinv.ids
        simpa [clearFlags] using this
      rw [hlen]
      exact h.two_le
    · exfalso
      apply he
      apply hasEmptyCell_of_length_lt
      have := survivors_length_lt d s.tiles h.cells h.grid hmer
      have := h.le_sixteen
      omega

theorem sessionInv_startGame (rnd : Nat → Nat) (fuel : Nat) (s0 s : Session)
    (h : startGame rnd fuel s0 = some s) : SessionInv s := by
  unfold startGame at h
  split at h
  · cases h
  · rename_i tiles idc dr heq
    simp only [Option.some.injEq] at h
    subst h
    obtain ⟨r1, c1, r2, c2, ht, hg1, hg2, hne, hid⟩ := getInitialTiles_spec rnd fuel 1 _ _ _ _ heq
    subst ht hid
    refine ⟨?_, ?_, ?_, ?_, ?_, ?_⟩
    · unfold DistinctCells
      simp only [List.map_cons, List.map_nil, cellOf, List.nodup_cons, List.mem_singleton,
        Prod.mk.injEq, List.not_mem_nil, not_false_eq_true, List.nodup_nil, and_true]
      intro hc
      rcases hne with hne | hne
      · exact hne hc.1
      · exact hne hc.2
    · intro t htm
      simp only [List.mem_cons, List.mem_singleton, List.not_mem_nil, or_false] at htm
      rcases htm with rfl | rfl
      · exact hg1
      · exact hg2
    · simp
    · simp
    · unfold DistinctIds
      simp
    · intro t htm
      simp only [List.mem_cons, List.mem_singleton, List.not_mem_nil, or_false] at htm
      rcases htm with rfl | rfl <;> simp

theorem sessionInv_of_reachable (rnd : Nat → Nat) (s : Session) (h : Reachable rnd s) :
    SessionInv s := by
  induction h with
  | start fuel s0 s hs => exact sessionInv_startGame rnd fuel s0 s hs
  | step d s _ ih => exact sessionInv_move rnd d s ih

/-- C9: in every session reached from a `startGame` by `move` calls, for every random
stream and all directions, no two tiles are in the same cell, every tile's row and column
lie in 0..3, and the number of tiles is at least 2 and at most 16. -/
theorem reachable_board_invariant (rnd : Nat → Nat) (s : Session) (h : Reachable rnd s) :
    DistinctCells s.tiles ∧ InGrid s.tiles ∧ 2 ≤ s.tiles.length ∧ s.tiles.length ≤ 16 :=
  have hi := sessionInv_of_reachable rnd s h
  ⟨hi.cells, hi.grid, hi.two_le, hi.le_sixteen⟩

theorem reachable_board_invariant_witness :
    DistinctCells (move quarterStream .left startedSession).tiles ∧
      InGrid (move quarterStream .left startedSession).tiles ∧
      2 ≤ (move quarterStream .left startedSession).tiles.length ∧
      (move quarterStream .left startedSession).tiles.length ≤ 16 :=
  reachable_board_invariant quarterStream _
    (Reachable.step .left startedSession
      (Reachable.start 5 overSession startedSession (by decide)))

/-! ## Tile values and the score -/

/-- The tiles after one step of the traversal, index by index: the tile of the cell may
have a new cell, the tile it merged into has its value doubled and `isMerged` set, and
every other tile is unchanged. -/
theorem processCell_tile {d : Direction} {ts : List Tile} {s : MoveState} (h : Inv d ts s)
    (r c : Int) (hg : OnGrid (r, c)) (k : Nat) (t : Tile)
    (ht : (processCell d s r c).currentTiles[k]? = some t) :
    ∃ t0 : Tile, s.currentTiles[k]? = some t0 ∧
      (t = t0 ∨ (∃ r2 c2 : Int, t = { t0 with row := r2, col := c2 }) ∨
        t = { t0 with value := t0.value * 2, isMerged := true }) := by
  rcases processCell_cases h r c hg with he | ⟨i, tile, n, -, hti, -, he⟩ |
    ⟨i, tile, n, np, j, nt, -, hti, -, -, hnt, hij, -, he⟩
  · rw [he] at ht
    exact ⟨t, ht, Or.inl rfl⟩
  · rw [he, applySlide_tiles s r c i _ tile hti] at ht
    split at ht
    · rename_i hki
      subst hki
      simp only [Option.some.injEq] at ht
      exact ⟨tile, hti, Or.inr (Or.inl ⟨_, _, ht.symm⟩)⟩
    · exact ⟨t, ht, Or.inl rfl⟩
  · have hm := applyMerge_tiles s r c i tile np j nt hti hnt hij
    rw [he] at ht
    split at ht
    · rw [hm] at ht
      split at ht
      · rename_i hki
        subst hki
        simp only [Option.some.injEq] at ht
        exact ⟨tile, hti, Or.inr (Or.inl ⟨_, _, ht.symm⟩)⟩
      · split at ht
        · rename_i hkj
          subst hkj
          simp only [Option.some.injEq] at ht
          exact ⟨nt, hnt, Or.inr (Or.inr ht.symm)⟩
        · exact ⟨t, ht, Or.inl rfl⟩
    · rw [applySlide_tiles _ r c i _ _ ((hm i).trans (if_pos rfl)), hm] at ht
      split at ht
      · rename_i hki
        subst hki
        simp only [Option.some.injEq] at ht
        exact ⟨tile, hti, Or.inr (Or.inl ⟨_, _, ht.symm⟩)⟩
      · split at ht
        · rename_i hkj
          subst hkj
          simp only [Option.some.injEq] at ht
          exact ⟨nt, hnt, Or.inr (Or.inr ht.symm)⟩
        · exact ⟨t, ht, Or.inl rfl⟩

/-- A property of tiles that is kept by a change of cell and by the doubling of a merge
holds for all tiles after the traversal when it holds before. -/
theorem resolve_tilewise (Q : Tile → Prop)
    (hcell : ∀ (t : Tile) (r c : Int), Q t → Q { t with row := r, col := c })
    (hdouble : ∀ t : Tile, Q t → Q { t with value := t.value * 2, isMerged := true })
    (d : Direction) (tiles : List Tile) (hd : DistinctCells tiles) (hg : InGrid tiles)
    (hq : ∀ t ∈ clearFlags tiles, Q t) :
    ∀ t ∈ (resolve d tiles).currentTiles, Q t := by
  have key := resolve_induction
    (fun s => Inv d (clearFlags tiles) s ∧ ∀ (k : Nat) (t : Tile), s.currentTiles[k]? = some t → Q t)
    d tiles ⟨inv_initMove d tiles hd hg, fun k t ht => hq t (List.getElem?_mem ht)⟩
    (fun s r c hs hrc => ⟨inv_processCell hs.1 r c hrc, fun k t ht => by
      obtain ⟨t0, h0, hcase⟩ := processCell_tile hs.1 r c hrc k t ht
      rcases hcase with rfl | ⟨r2, c2, rfl⟩ | rfl
      · exact hs.2 k t h0
      · exact hcell t0 r2 c2 (hs.2 k t0 h0)
      · exact hdouble t0 (hs.2 k t0 h0)⟩)
  intro t ht
  obtain ⟨k, hk⟩ := List.mem_iff_getElem?.1 ht
  exact key.2 k t hk

theorem isTileValue_double (v : Nat) (h : IsTileValue v) : IsTileValue (v * 2) := by
  obtain ⟨k, hk, rfl⟩ := h
  exact ⟨k + 1, by omega, by rw [pow_succ]⟩

theorem survivors_values (d : Direction) (tiles : List Tile) (hd : DistinctCells tiles)
    (hg : InGrid tiles) (hv : ∀ t ∈ tiles, IsTileValue t.value) :
    ∀ t ∈ survivors d tiles, IsTileValue t.value := by
  intro t ht
  unfold survivors at ht
  refine resolve_tilewise (fun t => IsTileValue t.value) (fun _ _ _ h => h)
    (fun t h => isTileValue_double t.value h) d tiles hd hg ?_ t (List.mem_filter.1 ht).1
  intro u hu
  simp only [clearFlags, List.mem_map] at hu
  obtain ⟨w, hw, rfl⟩ := hu
  exact hv w hw

theorem move_tiles_cases (rnd : Nat → Nat) (d : Direction) (s : Session) :
    move rnd d s = s ∨
      (s.gameOver = false ∧ (resolve d s.tiles).moved = true ∧
        ((move rnd d s).tiles = survivors d s.tiles ∧ (move rnd d s).idCounter = s.idCounter ∨
          ∃ t : Tile, (move rnd d s).tiles = survivors d s.tiles ++ [t] ∧
            (move rnd d s).idCounter = s.idCounter + 1 ∧ t.id = s.idCounter ∧
            SpawnedOn (survivors d s.tiles) t)) := by
  by_cases hgo : s.gameOver = true
  · left; simp [move, hgo]
  by_cases hm : (resolve d s.tiles).moved = true
  swap
  · left; simp [move, hm]
  have hgo2 : s.gameOver = false := by simpa using hgo
  right
  refine ⟨hgo2, hm, ?_⟩
  rw [move_accepted rnd d s hgo2 hm]
  by_cases he : HasEmptyCell (survivors d s.tiles)
  · obtain ⟨t, ht, hid, hsp⟩ := addRandomTile_spec rnd s.idCounter s.drawn _ he
    right
    exact ⟨t, by simp only [ht], by simp only [ht], hid, hsp⟩
  · left
    rw [addRandomTile_full rnd s.idCounter s.drawn _ he]
    exact ⟨rfl, rfl⟩

/-- C12: in every session reached from a `startGame` by `move` calls, the value of every
tile is a power of two and at least 2. -/
theorem reachable_values (rnd : Nat → Nat) (s : Session) (h : Reachable rnd s) :
    ∀ t ∈ s.tiles, (∃ k : Nat, 1 ≤ k ∧ t.value = 2 ^ k) ∧ 2 ≤ t.value := by
  have main : ∀ t ∈ s.tiles, IsTileValue t.value := by
    induction h with
    | start fuel s0 s hs =>
      unfold startGame at hs
      split at hs
      · cases hs
      · rename_i tiles idc dr heq
        simp only [Option.some.injEq] at hs
        subst hs
        obtain ⟨r1, c1, r2, c2, ht, -⟩ := getInitialTiles_spec rnd fuel 1 _ _ _ _ heq
        subst ht
        intro t htm
        simp only [List.mem_cons, List.mem_singleton, List.not_mem_nil, or_false] at htm
        rcases htm with rfl | rfl <;> exact ⟨1, le_refl _, rfl⟩
    | step d s hr ih =>
      have hi := sessionInv_of_reachable rnd s hr
      have hsv := survivors_values d s.tiles hi.cells hi.grid ih
      rcases move_tiles_cases rnd d s with he | ⟨-, -, ⟨he, -⟩ | ⟨t, he, -, -, hsp⟩⟩
      · rw [he]; exact ih
      · rw [he]; exact hsv
      · rw [he]
        intro u hu
        rcases List.mem_append.1 hu with hu | hu
        · exact hsv u hu
        · simp only [List.mem_singleton] at hu
          subst hu
          rcases hsp.1 with h2 | h4
          · exact ⟨1, le_refl _, h2⟩
          · exact ⟨2, by omega, h4⟩
  intro t ht
  obtain ⟨k, hk, hv⟩ := main t ht
  refine ⟨⟨k, hk, hv⟩, ?_⟩
  rw [hv]
  calc 2 = 2 ^ 1 := rfl
    _ ≤ 2 ^ k := Nat.pow_le_pow_right (by omega) hk

/-- C11: the score is a natural number, and no `move` lowers it: for every session (so
for every session reached from a `startGame`), every direction and every sequence of
directions, the score after is at least the score before. -/
theorem score_monotone (rnd : Nat → Nat) (s : Session) :
    (∀ d : Direction, s.score ≤ (move rnd d s).score) ∧
      ∀ ds : List Direction, s.score ≤ (ds.foldl (fun acc d => move rnd d acc) s).score := by
  have h1 : ∀ (s : Session) (d : Direction), s.score ≤ (move rnd d s).score := by
    intro s d
    unfold move
    split
    · exact le_refl _
    · simp only
      split
      · exact Nat.le_add_right _ _
      · exact le_refl _
  refine ⟨h1 s, ?_⟩
  · intro ds
    induction ds generalizing s with
    | nil => exact le_refl _
    | cons d ds ih =>
      rw [List.foldl_cons]
      exact le_trans (h1 s d) (ih (move rnd d s))


theorem reachable_values_witness :
    startedTile ∈ startedSession.tiles ∧
      (∃ k : Nat, 1 ≤ k ∧ startedTile.value = 2 ^ k) ∧ 2 ≤ startedTile.value :=
  ⟨by decide,
    reachable_values quarterStream startedSession
      (Reachable.start 5 overSession startedSession (by decide)) startedTile (by decide)⟩

/-! ## Tile ids -/

theorem reachable_ids_sorted (rnd : Nat → Nat) (s : Session) (h : Reachable rnd s) :
    (s.tiles.map (fun t => t.id)).Pairwise (fun a b => a < b) ∧
      ∀ t ∈ s.tiles, 1 ≤ t.id ∧ t.id < s.idCounter := by
  induction h with
  | start fuel s0 s hs =>
    unfold startGame at hs
    split at hs
    · cases hs
    · rename_i tiles idc dr heq
      simp only [Option.some.injEq] at hs
      subst hs
      obtain ⟨r1, c1, r2, c2, ht, -, -, -, hid⟩ := getInitialTiles_spec rnd fuel 1 _ _ _ _ heq
      subst ht hid
      constructor
      · simp
      · intro t htm
        simp only [List.mem_cons, List.mem_singleton, List.not_mem_nil, or_false] at htm
        rcases htm with rfl | rfl <;> simp
  | step d s hr ih =>
    have hi := sessionInv_of_reachable rnd s hr
    have hsub := survivors_ids_sublist d s.tiles hi.cells hi.grid
    have hsort := List.Pairwise.sublist hsub ih.1
    have hlt : ∀ t ∈ survivors d s.tiles, 1 ≤ t.id ∧ t.id < s.idCounter := by
      intro t ht
      have : t.id ∈ s.tiles.map (fun t => t.id) := hsub.subset (List.mem_map.2 ⟨t, ht, rfl⟩)
      obtain ⟨u, hu, hid⟩ := List.mem_map.1 this
      rw [← hid]
      exact ih.2 u hu
    rcases move_tiles_cases rnd d s with he | ⟨-, -, ⟨he, hc⟩ | ⟨t, he, hc, hid, -⟩⟩
    · rw [he]; exact ih
    · rw [he, hc]; exact ⟨hsort, hlt⟩
    · rw [he, hc]
      constructor
      · rw [List.map_append, List.pairwise_append]
        refine ⟨hsort, by simp, ?_⟩
        intro a ha b hb
        simp only [List.map_cons, List.map_nil, List.mem_singleton] at hb
        obtain ⟨u, hu, rfl⟩ := List.mem_map.1 ha
        rw [hb, hid]
        exact (hlt u hu).2
      · intro u hu
        rcases List.mem_append.1 hu with hu | hu
        · have := hlt u hu
          omega
        · simp only [List.mem_singleton] at hu
          subst hu
          have : 1 ≤ s.idCounter := by
            have h2 := hi.two_le
            obtain ⟨w, hw⟩ := List.exists_mem_of_length_pos (by omega : 0 < s.tiles.length)
            have := ih.2 w hw
            omega
          omega

/-- C13: in every session reached from a `startGame` by `move` calls, the ids of the tiles
are strictly increasing along the tile list (the order of creation), hence pairwise
distinct, and every id is at least 1 and smaller than the id counter; through the
traversal of a move every tile object keeps its id, the ids of the tiles kept by a move
are a sublist of the ids before, the id counter never decreases, and a tile spawned by a
move gets the id counter as its id, which is greater than every id of the session so
far. -/
theorem reachable_ids (rnd : Nat → Nat) (s : Session) (h : Reachable rnd s) :
    (s.tiles.map (fun t => t.id)).Pairwise (fun a b => a < b) ∧ DistinctIds s.tiles ∧
      (∀ t ∈ s.tiles, 1 ≤ t.id ∧ t.id < s.idCounter) ∧
      ∀ d : Direction,
        (resolve d s.tiles).currentTiles.map (fun t => t.id) = s.tiles.map (fun t => t.id) ∧
        ((survivors d s.tiles).map (fun t => t.id)).Sublist (s.tiles.map (fun t => t.id)) ∧
        s.idCounter ≤ (move rnd d s).idCounter ∧
        (move rnd d s = s ∨
          ((move rnd d s).tiles = survivors d s.tiles ∧
            (move rnd d s).idCounter = s.idCounter) ∨
          ∃ t : Tile, (move rnd d s).tiles = survivors d s.tiles ++ [t] ∧
            t.id = s.idCounter ∧ (move rnd d s).idCounter = s.idCounter + 1 ∧
            ∀ u ∈ s.tiles, u.id < t.id) := by
  have hs := reachable_ids_sorted rnd s h
  have hi := sessionInv_of_reachable rnd s h
  refine ⟨hs.1, hi.ids, hs.2, ?_⟩
  intro d
  have hinv := inv_resolve d s.tiles hi.cells hi.grid
  refine ⟨?_, survivors_ids_sublist d s.tiles hi.cells hi.grid, ?_, ?_⟩
  · rw [hinv.ids]
    simp [clearFlags]
  · rcases move_tiles_cases rnd d s with he | ⟨-, -, ⟨-, hc⟩ | ⟨t, -, hc, -, -⟩⟩
    · rw [he]
    · rw [hc]
    · rw [hc]; omega
  · rcases move_tiles_cases rnd d s with he | ⟨-, -, ⟨he, hc⟩ | ⟨t, he, hc, hid, -⟩⟩
    · exact Or.inl he
    · exact Or.inr (Or.inl ⟨he, hc⟩)
    · refine Or.inr (Or.inr ⟨t, he, hid, hc, ?_⟩)
      intro u hu
      rw [hid]
      exact (hs.2 u hu).2

theorem reachable_ids_witness :
    (startedSession.tiles.map (fun t => t.id)).Pairwise (fun a b => a < b) ∧
      DistinctIds startedSession.tiles :=
  have h := reachable_ids quarterStream startedSession
    (Reachable.start 5 overSession startedSession (by decide))
  ⟨h.1, h.2.1⟩

/-! ## The empty cells, a gap left by a move, and the rejection loop -/

theorem flatten_filter_rows (rows cols : List Int) (q : Int → Int → Bool) :
    (rows.map (fun r => (cols.filter (fun c => q r c)).map (fun c => (r, c)))).flatten
      = ((rows.map (fun r => cols.map (fun c => (r, c)))).flatten).filter
          (fun p => q p.1 p.2) := by
  induction rows with
  | nil => rfl
  | cons r rows ih =>
    simp only [List.map_cons, List.flatten_cons, List.filter_append, ih]
    congr 1
    rw [List.filter_map]
    rfl

theorem emptyCells_eq_filter (tiles : List Tile) :
    emptyCells tiles
      = allCells.filter (fun p => !tiles.any (fun t => decide (t.row = p.1 ∧ t.col = p.2))) := by
  rw [emptyCells_eq]
  exact flatten_filter_rows [0, 1, 2, 3] [0, 1, 2, 3]
    (fun r c => !tiles.any (fun t => decide (t.row = r ∧ t.col = c)))

/-- C15: when every cell of the grid holds a tile, `addRandomTile` returns the tiles it
was given, the id counter and the count of drawn numbers unchanged, for every random
stream; and for every tile list the candidates `emptyCells` are the cells of the grid
that hold no tile, in row-major order, each once. -/
theorem addRandomTile_full_board (rnd : Nat → Nat) :
    (∀ (idCounter drawn : Nat) (tiles : List Tile),
      (∀ r c : Int, 0 ≤ r → r < 4 → 0 ≤ c → c < 4 → ∃ t ∈ tiles, t.row = r ∧ t.col = c) →
      addRandomTile rnd idCounter drawn tiles = (tiles, idCounter, drawn)) ∧
    ∀ tiles : List Tile,
      emptyCells tiles
        = allCells.filter
            (fun p => !tiles.any (fun t => decide (t.row = p.1 ∧ t.col = p.2))) ∧
      (emptyCells tiles).Nodup ∧
      ∀ p : Int × Int, p ∈ emptyCells tiles ↔
        (0 ≤ p.1 ∧ p.1 < 4 ∧ 0 ≤ p.2 ∧ p.2 < 4) ∧ ∀ t ∈ tiles, ¬ (t.row = p.1 ∧ t.col = p.2) := by
  constructor
  · intro idCounter drawn tiles hfull
    apply addRandomTile_full
    rintro ⟨r, c, h1, h2, h3, h4, hfree⟩
    obtain ⟨t, ht, hr, hc⟩ := hfull r c h1 h2 h3 h4
    exact hfree t ht ⟨hr, hc⟩
  · intro tiles
    refine ⟨emptyCells_eq_filter tiles, ?_, mem_emptyCells tiles⟩
    rw [emptyCells_eq_filter]
    exact List.Nodup.filter _ (by decide)

theorem addRandomTile_full_board_witness :
    (∀ r c : Int, 0 ≤ r → r < 4 → 0 ≤ c → c < 4 → ∃ t ∈ fullBoard, t.row = r ∧ t.col = c) ∧
      addRandomTile quarterStream 17 0 fullBoard = (fullBoard, 17, 0) :=
  have h : ∀ r c : Int, 0 ≤ r → r < 4 → 0 ≤ c → c < 4 →
      ∃ t ∈ fullBoard, t.row = r ∧ t.col = c := by
    intro r c h1 h2 h3 h4
    interval_cases r <;> interval_cases c <;> simp [fullBoard, mkTile]
  ⟨h, (addRandomTile_full_board quarterStream).1 17 0 fullBoard h⟩

/-- C16, evaluated at the row 2, _, 2, 2 moved left: the tiles kept by the move are the
tile of value 4 at column 0 and the tile with id 3, of value 2, at column 2; no kept tile
is at column 1, the cell next to tile 3 in the direction of the move, and tile 3 is not at
the edge. The absorbed tile 2 was put back on the board at column 1 by the block that
moves a tile, and stopped tile 3 there. -/
theorem row2022_left_gap :
    survivors .left row2022
        = [{ id := 1, value := 4, row := 0, col := 0, isNew := false, isMerged := true },
           { id := 3, value := 2, row := 0, col := 2, isNew := false, isMerged := false }]
      ∧ (resolve .left row2022).currentTiles[1]?
        = some { id := 2, value := 2, row := 0, col := 1, isNew := false, isMerged := false }
      ∧ (resolve .left row2022).mergedIds = [2] := by
  decide

theorem drawSecond_zeroStream (fuel drawn : Nat) :
    drawSecond zeroStream (0, 0) fuel drawn = none := by
  induction fuel generalizing drawn with
  | zero => rfl
  | succ fuel ih =>
    simp only [drawSecond]
    rw [if_pos]
    · exact ih _
    · simp only [zeroStream]
      decide

/-- C18, refuted at the random stream that always returns 0: `startGame` returns for no
bound on the iterations of the rejection loop. -/
theorem startGame_zeroStream_diverges :
    ¬ ∃ fuel : Nat, (startGame zeroStream fuel overSession).isSome = true := by
  rintro ⟨fuel, h⟩
  have hd := drawSecond_zeroStream fuel (overSession.drawn + 2)
  unfold startGame getInitialTiles at h
  have h0 : ((randomFloor (zeroStream overSession.drawn) 4 : Nat) : Int) = 0 := by decide
  have h1 : ((randomFloor (zeroStream (overSession.drawn + 1)) 4 : Nat) : Int) = 0 := by decide
  simp only [h0, h1, hd] at h
  cases h

/-! ## The loops end -/

theorem walk_fuel_mono (s : MoveState) (v : Int × Int) (tile : Tile) (fuel n : Nat)
    (cur : Int × Int) (w : WalkResult) (h : walk s v tile fuel cur = some w) :
    walk s v tile (fuel + n) cur = some w := by
  induction fuel generalizing cur with
  | zero => simp [walk] at h
  | succ fuel ih =>
    have e : fuel + 1 + n = (fuel + n) + 1 := by omega
    rw [e]
    simp only [walk] at h ⊢
    split
    · rename_i hout
      simpa [hout] using h
    · rename_i hin
      simp only [hin, if_false] at h
      split
      · rename_i j hj
        simpa [hj] using h
      · rename_i hnone
        simp only [hnone] at h
        exact ih _ h

theorem drawSecond_isSome_iff (rnd : Nat → Nat) (pos1 : Int × Int) (fuel drawn : Nat) :
    (drawSecond rnd pos1 fuel drawn).isSome = true ↔
      ∃ n : Nat, n < fuel ∧ secondDraw rnd drawn n ≠ pos1 := by
  induction fuel generalizing drawn with
  | zero => simp [drawSecond]
  | succ fuel ih =>
    have hshift : ∀ n, secondDraw rnd (drawn + 2) n = secondDraw rnd drawn (n + 1) := by
      intro n
      unfold secondDraw
      have e1 : drawn + 2 + 2 * n = drawn + 2 * (n + 1) := by ring
      rw [e1]
    have h0 : secondDraw rnd drawn 0
        = (((randomFloor (rnd drawn) 4 : Nat), (randomFloor (rnd (drawn + 1)) 4 : Nat)) : Int × Int) := by
      unfold secondDraw
      simp
    simp only [drawSecond]
    split
    · rename_i heq
      rw [ih]
      have hsame : secondDraw rnd drawn 0 = pos1 := by
        rw [h0]
        exact Prod.ext heq.1.symm heq.2.symm
      constructor
      · rintro ⟨n, hn, hne⟩
        exact ⟨n + 1, by omega, by rw [← hshift]; exact hne⟩
      · rintro ⟨n, hn, hne⟩
        cases n with
        | zero => exact absurd hsame hne
        | succ n => exact ⟨n, by omega, by rw [hshift]; exact hne⟩
    · rename_i hne
      simp only [Option.isSome_some, true_iff]
      refine ⟨0, by omega, ?_⟩
      rw [h0]
      intro he
      apply hne
      rw [← he]
      exact ⟨rfl, rfl⟩

/-- C18, amended: the slide loop of `move` ends from every cell of the grid, for every
state, tile and direction: four iterations give a result, more iterations give the
same one, and the tile advances by at most 3 cells; `startGame` (the rejection loop of
`getInitialTiles`) returns within `fuel` draws of the second position exactly when
one of these draws differs from the first position. -/
theorem loops_terminate :
    (∀ (s : MoveState) (d : Direction) (tile : Tile) (r c : Int), OnGrid (r, c) →
      ∃ (w : WalkResult) (k : Nat), k ≤ 3 ∧
        w.currentPos = (r + k * (getVector d).1, c + k * (getVector d).2) ∧
        ∀ n : Nat, walk s (getVector d) tile (4 + n) (r, c) = some w) ∧
    (∀ (rnd : Nat → Nat) (fuel : Nat) (s : Session),
      (startGame rnd fuel s).isSome = true ↔
        ∃ n : Nat, n < fuel ∧ secondDraw rnd (s.drawn + 2) n ≠ secondDraw rnd s.drawn 0) := by
  constructor
  · intro s d tile r c hg
    obtain ⟨w, hw⟩ := walk_isSome s d tile r c hg
    obtain ⟨k, hk, hpos, -⟩ := walk_spec s _ tile 4 (r, c) w hw
    exact ⟨w, k, by omega, hpos, fun n => walk_fuel_mono s _ tile 4 n (r, c) w hw⟩
  · intro rnd fuel s
    rw [← drawSecond_isSome_iff]
    have h0 : secondDraw rnd s.drawn 0
        = (((randomFloor (rnd s.drawn) 4 : Nat), (randomFloor (rnd (s.drawn + 1)) 4 : Nat)) : Int × Int) := by
      unfold secondDraw
      simp
    rw [h0]
    unfold startGame getInitialTiles
    simp only
    cases drawSecond rnd (((randomFloor (rnd s.drawn) 4 : Nat), (randomFloor (rnd (s.drawn + 1)) 4 : Nat)) : Int × Int)
      fuel (s.drawn + 2) <;> rfl

theorem loops_terminate_witness :
    OnGrid (0, 2) ∧
      ∃ (w : WalkResult) (k : Nat), k ≤ 3 ∧
        w.currentPos = (0 + k * (getVector .left).1, 2 + k * (getVector .left).2) ∧
        ∀ n : Nat, walk (initMove row224) (getVector .left) (mkTile 3 4 0 2) (4 + n) (0, 2)
          = some w :=
  ⟨⟨by decide, by decide, by decide, by decide⟩,
    loops_terminate.1 (initMove row224) .left (mkTile 3 4 0 2) 0 2
      ⟨by decide, by decide, by decide, by decide⟩⟩

/-! ## The complete description of a step -/

/-- The complete description of one step of the traversal on a state that satisfies the
invariant. The cell is empty and nothing happens; or its tile advances over `n` empty
cells of the grid and then either is stopped (by the edge or by a tile that it cannot
merge with), so that it is moved when `n` is not 0, or it merges with the tile in the
next cell, and is moved as well when `n` is not 0. -/
theorem processCell_outcome {d : Direction} {ts : List Tile} {s : MoveState} (h : Inv d ts s)
    (r c : Int) (hg : OnGrid (r, c)) :
    (s.board r c = none ∧ processCell d s r c = s) ∨
    ∃ (i : Nat) (tile : Tile) (n : Nat),
      s.board r c = some i ∧ s.currentTiles[i]? = some tile ∧ tile.row = r ∧ tile.col = c ∧
      n ≤ 3 ∧
      (∀ m : Nat, 1 ≤ m → m ≤ n →
        s.board (ahead d r c m).1 (ahead d r c m).2 = none ∧ OnGrid (ahead d r c m)) ∧
      (((¬ OnGrid (ahead d r c (n + 1)) ∨
            ∃ (j : Nat) (nt : Tile),
              s.board (ahead d r c (n + 1)).1 (ahead d r c (n + 1)).2 = some j ∧
              s.currentTiles[j]? = some nt ∧ ¬ Mergeable s tile nt) ∧
          processCell d s r c = if n = 0 then s else applySlide s r c i (ahead d r c n)) ∨
        ∃ (j : Nat) (nt : Tile),
          OnGrid (ahead d r c (n + 1)) ∧
          s.board (ahead d r c (n + 1)).1 (ahead d r c (n + 1)).2 = some j ∧
          s.currentTiles[j]? = some nt ∧ i ≠ j ∧ Mergeable s tile nt ∧
          processCell d s r c =
            if n = 0 then applyMerge s r c i tile (ahead d r c (n + 1)) j
            else applySlide (applyMerge s r c i tile (ahead d r c (n + 1)) j) r c i
              (ahead d r c n)) := by
  unfold processCell
  cases hb : s.board r c with
  | none => exact Or.inl ⟨rfl, rfl⟩
  | some i =>
    right
    obtain ⟨tile, ht, hrow, hcol⟩ := h.board_tile r c i hb
    obtain ⟨w, hw⟩ := walk_isSome s d tile r c hg
    simp only [ht, hw]
    obtain ⟨n, hn, hpos, hbetween, hmerge, hblocked⟩ := walk_spec s _ tile 4 (r, c) w hw
    simp only at hpos hbetween
    have hnext : (w.currentPos.1 + (getVector d).1, w.currentPos.2 + (getVector d).2)
        = ahead d r c (n + 1) := by
      rw [hpos]
      unfold ahead
      simp only [Prod.mk.injEq]
      constructor <;> (push_cast; ring)
    have hk : (w.currentPos.1 ≠ r ∨ w.currentPos.2 ≠ c) ↔ n ≠ 0 := by
      constructor
      · intro hne hk0
        subst hk0
        rw [hpos] at hne
        simp at hne
      · intro hk0
        by_contra hcon
        push_neg at hcon
        rw [hpos] at hcon
        exact step_ne d r c n (by omega) hcon
    refine ⟨i, tile, n, rfl, ht, hrow, hcol, by omega, hbetween, ?_⟩
    cases hwm : w.merge with
    | none =>
      left
      have hbl := hblocked hwm
      have hbl1 : (w.currentPos.1 + (getVector d).1, w.currentPos.2 + (getVector d).2).1
          = (ahead d r c (n + 1)).1 := by rw [hnext]
      have hbl2 : (w.currentPos.1 + (getVector d).1, w.currentPos.2 + (getVector d).2).2
          = (ahead d r c (n + 1)).2 := by rw [hnext]
      simp only at hbl1 hbl2
      rw [hnext, hbl1, hbl2] at hbl
      constructor
      · rcases hbl with hoff | ⟨j, hj, hnm⟩
        · exact Or.inl hoff
        · right
          obtain ⟨nt, hnt, -, -⟩ := h.board_tile _ _ j hj
          exact ⟨j, nt, hj, hnt, hnm nt hnt⟩
      · rw [settle_merge_none _ _ _ _ _ _ hwm]
        by_cases hk0 : n = 0
        · rw [if_neg (fun hne => hk.1 hne hk0), if_pos hk0]
        · rw [if_pos (hk.2 hk0), if_neg hk0, hpos]
          rfl
    | some pj =>
      right
      obtain ⟨np, j⟩ := pj
      obtain ⟨hnp, hon, hj, nt, hnt, hm⟩ := hmerge np j hwm
      rw [hnext] at hnp
      subst hnp
      have hij : i ≠ j := by
        intro hij
        subst hij
        obtain ⟨t2, ht2, hr2, hc2⟩ := h.board_tile _ _ i hj
        rw [ht] at ht2
        cases ht2
        have hrc : (ahead d r c (n + 1)).1 = r ∧ (ahead d r c (n + 1)).2 = c :=
          ⟨hr2.symm.trans hrow, hc2.symm.trans hcol⟩
        exact step_ne d r c (n + 1) (by omega) hrc
      refine ⟨j, nt, hon, hj, hnt, hij, hm, ?_⟩
      rw [settle_merge_some _ _ _ _ _ _ _ _ hwm]
      by_cases hk0 : n = 0
      · rw [if_neg (fun hne => hk.1 hne hk0), if_pos hk0]
      · rw [if_pos (hk.2 hk0), if_neg hk0, hpos]
        rfl

/-! ## A move that changes nothing -/

theorem ahead_one (d : Direction) (r c : Int) :
    ahead d r c 1 = (r + (getVector d).1, c + (getVector d).2) := by
  unfold ahead
  simp

theorem blocked_clearFlags (d : Direction) (tiles : List Tile)
    (hb : ∀ t ∈ tiles, Blocked d tiles t) :
    ∀ t ∈ clearFlags tiles, Blocked d (clearFlags tiles) t := by
  intro t ht
  simp only [clearFlags, List.mem_map] at ht
  obtain ⟨t0, ht0, rfl⟩ := ht
  rcases hb t0 ht0 with hoff | ⟨u, hu, hr, hc, hv⟩
  · exact Or.inl hoff
  · right
    exact ⟨{ u with isNew := false, isMerged := false },
      by simp only [clearFlags, List.mem_map]; exact ⟨u, hu, rfl⟩, hr, hc, hv⟩

/-- In a state in which nothing has moved, a tile of the tiles is on the board at its
cell. -/
theorem board_of_not_moved {d : Direction} {ts : List Tile} {s : MoveState} (h : Inv d ts s)
    (hm : s.moved = false) (u : Tile) (hu : u ∈ ts) :
    ∃ k : Nat, s.board u.row u.col = some k ∧ s.currentTiles[k]? = some u := by
  obtain ⟨hts, hids, -, -⟩ := h.not_moved hm
  obtain ⟨k, hk⟩ := List.mem_iff_getElem?.1 hu
  rw [← hts] at hk
  exact ⟨k, h.live_board k u hk (by rw [hids]; simp), hk⟩

/-- A step of the traversal changes nothing when nothing has moved so far and every tile
is blocked. -/
theorem processCell_of_blocked {d : Direction} {ts : List Tile} {s : MoveState}
    (h : Inv d ts s) (hm : s.moved = false) (hb : ∀ t ∈ ts, Blocked d ts t)
    (r c : Int) (hg : OnGrid (r, c)) : processCell d s r c = s := by
  obtain ⟨hts, hids, -, -⟩ := h.not_moved hm
  rcases processCell_outcome h r c hg with ⟨-, he⟩ |
    ⟨i, tile, n, hbi, hti, hrow, hcol, -, hfree, hcase⟩
  · exact he
  · have htile : tile ∈ ts := by rw [← hts]; exact List.getElem?_mem hti
    have hbl := hb tile htile
    unfold Blocked at hbl
    rw [hrow, hcol, ← ahead_one] at hbl
    have hn : n = 0 := by
      by_contra hn0
      obtain ⟨hnone, hon⟩ := hfree 1 (le_refl _) (by omega)
      rcases hbl with hoff | ⟨u, hu, hr, hc, -⟩
      · exact hoff hon
      · obtain ⟨k, hk, -⟩ := board_of_not_moved h hm u hu
        have e : (u.row, u.col) = ahead d r c 1 := by rw [ahead_one]; exact Prod.ext hr hc
        have e1 : u.row = (ahead d r c 1).1 := congrArg Prod.fst e
        have e2 : u.col = (ahead d r c 1).2 := congrArg Prod.snd e
        rw [e1, e2, hnone] at hk
        cases hk
    subst hn
    rcases hcase with ⟨-, he⟩ | ⟨j, nt, hon, hj, hnt, -, hmg, -⟩
    · simpa using he
    · exfalso
      simp only [Nat.zero_add] at hon hj
      rcases hbl with hoff | ⟨u, hu, hr, hc, hv⟩
      · exact hoff hon
      · obtain ⟨k, hk, hku⟩ := board_of_not_moved h hm u hu
        have e : (u.row, u.col) = ahead d r c 1 := by rw [ahead_one]; exact Prod.ext hr hc
        have e1 : u.row = (ahead d r c 1).1 := congrArg Prod.fst e
        have e2 : u.col = (ahead d r c 1).2 := congrArg Prod.snd e
        rw [e1, e2, hj] at hk
        simp only [Option.some.injEq] at hk
        subst hk
        rw [hnt] at hku
        simp only [Option.some.injEq] at hku
        subst hku
        exact hv hmg.1

theorem resolve_of_blocked (d : Direction) (tiles : List Tile) (hd : DistinctCells tiles)
    (hg : InGrid tiles) (hb : ∀ t ∈ tiles, Blocked d tiles t) :
    (resolve d tiles).moved = false := by
  have hb2 := blocked_clearFlags d tiles hb
  have key := resolve_induction
    (fun s => Inv d (clearFlags tiles) s ∧ s.moved = false) d tiles
    ⟨inv_initMove d tiles hd hg, rfl⟩
    (fun s r c hs hrc => by
      rw [processCell_of_blocked hs.1 hs.2 hb2 r c hrc]
      exact hs)
  exact key.2

/-- C17: for tiles in distinct cells of the grid such that every tile is at the edge of
the grid in the direction `d` or has, in the next cell in that direction, a tile of a
different value, the traversal in the direction `d` performs no merge, leaves every tile
where it was (the tiles are the input tiles with the flags cleared, none is removed) and
reports `moved = false`; so `move` returns the session unchanged. -/
theorem no_move_when_blocked (d : Direction) (tiles : List Tile) (hd : DistinctCells tiles)
    (hg : InGrid tiles)
    (hb : ∀ t ∈ tiles,
      ¬ (0 ≤ t.row + (getVector d).1 ∧ t.row + (getVector d).1 < 4 ∧
          0 ≤ t.col + (getVector d).2 ∧ t.col + (getVector d).2 < 4) ∨
        ∃ u ∈ tiles, u.row = t.row + (getVector d).1 ∧ u.col = t.col + (getVector d).2 ∧
          u.value ≠ t.value) :
    (resolve d tiles).moved = false ∧ (resolve d tiles).merges = [] ∧
      (resolve d tiles).mergedIds = [] ∧ (resolve d tiles).scoreToAdd = 0 ∧
      (resolve d tiles).currentTiles = clearFlags tiles ∧
      survivors d tiles = clearFlags tiles ∧
      ∀ (rnd : Nat → Nat) (s : Session), s.tiles = tiles → move rnd d s = s := by
  have hm := resolve_of_blocked d tiles hd hg hb
  obtain ⟨hts, hids, hmer, hsc⟩ := (inv_resolve d tiles hd hg).not_moved hm
  refine ⟨hm, hmer, hids, hsc, hts, ?_, ?_⟩
  · unfold survivors
    rw [hids, hts]
    simp
  · intro rnd s hs
    subst hs
    simp [move, hm]

theorem no_move_when_blocked_witness :
    DistinctCells row2424 ∧ InGrid row2424 ∧ (resolve .left row2424).moved = false ∧
      (resolve .left row2424).merges = [] :=
  have h := no_move_when_blocked .left row2424 (by decide) (by decide) (by decide)
  ⟨by decide, by decide, h.1, h.2.1⟩

/-! ## A tile that can act makes the move count -/

theorem resolve_eq_foldl (d : Direction) (tiles : List Tile) :
    resolve d tiles
      = (traversalCells d).foldl (fun s p => processCell d s p.1 p.2) (initMove tiles) := by
  cases d <;> rfl

theorem mem_traversalCells (d : Direction) (p : Int × Int) :
    p ∈ traversalCells d ↔ OnGrid p := by
  obtain ⟨r, c⟩ := p
  unfold OnGrid
  cases d <;>
    simp only [traversalCells, traversals, List.mem_flatMap, List.mem_map, List.mem_cons,
      List.mem_singleton, List.not_mem_nil, or_false, Prod.mk.injEq] <;>
    constructor
  all_goals first
    | (rintro ⟨r2, hr2, c2, hc2, rfl, rfl⟩; omega)
    | (intro h; exact ⟨r, by omega, c, by omega, rfl, rfl⟩)

theorem processCell_moved_mono (d : Direction) (s : MoveState) (r c : Int)
    (h : s.moved = true) : (processCell d s r c).moved = true := by
  unfold processCell
  split
  · exact h
  · split
    · exact h
    · split
      · exact h
      · rename_i w _
        unfold settle
        simp only
        split
        · rfl
        · split
          · rename_i np j _
            unfold applyMerge
            split
            · exact h
            · rfl
          · exact h

theorem foldl_moved_mono (d : Direction) (cells : List (Int × Int)) (s : MoveState)
    (h : s.moved = true) :
    (cells.foldl (fun s p => processCell d s p.1 p.2) s).moved = true := by
  induction cells generalizing s with
  | nil => exact h
  | cons p cells ih =>
    rw [List.foldl_cons]
    exact ih _ (processCell_moved_mono d s p.1 p.2 h)

theorem inv_foldl {d : Direction} {ts : List Tile} (cells : List (Int × Int))
    (hc : ∀ p ∈ cells, OnGrid p) (s : MoveState) (h : Inv d ts s) :
    Inv d ts (cells.foldl (fun s p => processCell d s p.1 p.2) s) := by
  induction cells generalizing s with
  | nil => exact h
  | cons p cells ih =>
    rw [List.foldl_cons]
    exact ih (fun q hq => hc q (List.mem_cons_of_mem _ hq)) _
      (inv_processCell h p.1 p.2 (hc p (List.mem_cons_self _ _)))

/-- A tile that can act makes the step at its cell set `moved`: the next cell is on the
grid and holds no tile, or a tile of the same value. -/
theorem processCell_of_can_act {d : Direction} {ts : List Tile} {s : MoveState}
    (h : Inv d ts s) (hm : s.moved = false) (t : Tile) (ht : t ∈ ts)
    (hon : OnGrid (t.row + (getVector d).1, t.col + (getVector d).2))
    (hact : (∀ u ∈ ts, ¬ (u.row = t.row + (getVector d).1 ∧ u.col = t.col + (getVector d).2)) ∨
      ∃ u ∈ ts, u.row = t.row + (getVector d).1 ∧ u.col = t.col + (getVector d).2 ∧
        u.value = t.value) :
    (processCell d s t.row t.col).moved = true := by
  obtain ⟨hts, hids, -, -⟩ := h.not_moved hm
  obtain ⟨k, hbk, hkt⟩ := board_of_not_moved h hm t ht
  have hg : OnGrid (t.row, t.col) := h.in_grid k t hkt
  rw [← ahead_one] at hon
  rcases processCell_outcome h t.row t.col hg with ⟨hnone, -⟩ |
    ⟨i, tile, n, hbi, hti, -, -, -, -, hcase⟩
  · rw [hnone] at hbk
    cases hbk
  · rw [hbi] at hbk
    simp only [Option.some.injEq] at hbk
    subst hbk
    rw [hti] at hkt
    simp only [Option.some.injEq] at hkt
    subst hkt
    rcases hcase with ⟨hbl, he⟩ | ⟨j, nt, -, -, hnt, -, -, he⟩
    · by_cases hn : n = 0
      · exfalso
        subst hn
        simp only [Nat.zero_add] at hbl
        rcases hbl with hoff | ⟨j, nt, hj, hnt, hnm⟩
        · exact hoff hon
        · obtain ⟨nt2, hnt2, hr2, hc2⟩ := h.board_tile _ _ j hj
          rw [hnt] at hnt2
          simp only [Option.some.injEq] at hnt2
          subst hnt2
          rw [ahead_one] at hr2 hc2
          simp only at hr2 hc2
          have hmem : nt ∈ ts := by rw [← hts]; exact List.getElem?_mem hnt
          rcases hact with hfree | ⟨u, hu, hr, hc, hv⟩
          · exact hfree nt hmem ⟨hr2, hc2⟩
          · obtain ⟨k2, hk2, hku⟩ := board_of_not_moved h hm u hu
            rw [hr, hc, ← hr2, ← hc2] at hk2
            have hjb := h.live_board j nt hnt (by rw [hids]; simp)
            rw [hjb] at hk2
            simp only [Option.some.injEq] at hk2
            subst hk2
            rw [hnt] at hku
            simp only [Option.some.injEq] at hku
            subst hku
            exact hnm ⟨hv, by rw [hids]; simp, by rw [hids]; simp⟩
      · rw [he, if_neg hn]
        rfl
    · rw [he]
      split
      · simp only [applyMerge, hnt]
      · rfl

/-- A tile that can act in the direction `d` makes the traversal report `moved = true`. -/
theorem resolve_of_can_act (d : Direction) (tiles : List Tile) (hd : DistinctCells tiles)
    (hg : InGrid tiles) (t : Tile) (ht : t ∈ tiles)
    (hon : OnGrid (t.row + (getVector d).1, t.col + (getVector d).2))
    (hact : (∀ u ∈ tiles,
        ¬ (u.row = t.row + (getVector d).1 ∧ u.col = t.col + (getVector d).2)) ∨
      ∃ u ∈ tiles, u.row = t.row + (getVector d).1 ∧ u.col = t.col + (getVector d).2 ∧
        u.value = t.value) :
    (resolve d tiles).moved = true := by
  have htg := hg t ht
  have hmem : (t.row, t.col) ∈ traversalCells d := (mem_traversalCells d _).2 htg
  obtain ⟨pre, post, hsplit⟩ := List.append_of_mem hmem
  have hall : ∀ p ∈ traversalCells d, OnGrid p := fun p hp => (mem_traversalCells d p).1 hp
  have hpre : ∀ p ∈ pre, OnGrid p := by
    intro p hp
    apply hall
    rw [hsplit]
    exact List.mem_append_left _ hp
  rw [resolve_eq_foldl, hsplit, List.foldl_append, List.foldl_cons]
  have hinv := inv_foldl pre hpre _ (inv_initMove d tiles hd hg)
  apply foldl_moved_mono
  by_cases hm : (pre.foldl (fun s p => processCell d s p.1 p.2) (initMove tiles)).moved = true
  · exact processCell_moved_mono d _ _ _ hm
  · have hm2 : (pre.foldl (fun s p => processCell d s p.1 p.2) (initMove tiles)).moved = false := by
      simpa using hm
    let t2 : Tile := { t with isNew := false, isMerged := false }
    have ht2 : t2 ∈ clearFlags tiles := by
      simp only [clearFlags, List.mem_map]
      exact ⟨t, ht, rfl⟩
    refine processCell_of_can_act hinv hm2 t2 ht2 hon ?_
    rcases hact with hfree | ⟨u, hu, hr, hc, hv⟩
    · left
      intro u hu
      simp only [clearFlags, List.mem_map] at hu
      obtain ⟨u0, hu0, rfl⟩ := hu
      exact hfree u0 hu0
    · right
      exact ⟨{ u with isNew := false, isMerged := false },
        by simp only [clearFlags, List.mem_map]; exact ⟨u, hu, rfl⟩, hr, hc, hv⟩

/-! ## The game-over test and the four directions -/

theorem ahead_succ (d : Direction) (r c : Int) (n : Nat) :
    ahead d r c (n + 1)
      = ((ahead d r c n).1 + (getVector d).1, (ahead d r c n).2 + (getVector d).2) := by
  unfold ahead
  simp only [Prod.mk.injEq]
  constructor <;> (push_cast; ring)

theorem onGrid_ahead_of_succ (d : Direction) (r c : Int) (n : Nat) (h0 : OnGrid (r, c))
    (h1 : OnGrid (ahead d r c (n + 1))) : OnGrid (ahead d r c n) := by
  unfold OnGrid ahead at *
  cases d <;> simp only [getVector] at * <;> push_cast at * <;> omega

/-- Tiles that leave a cell of the grid empty include a tile next to an empty cell of the
grid. -/
theorem exists_tile_next_to_empty (tiles : List Tile) (hg : InGrid tiles) (hne : tiles ≠ [])
    (he : HasEmptyCell tiles) :
    ∃ t ∈ tiles, ∃ d : Direction,
      OnGrid (t.row + (getVector d).1, t.col + (getVector d).2) ∧
      ∀ u ∈ tiles, ¬ (u.row = t.row + (getVector d).1 ∧ u.col = t.col + (getVector d).2) := by
  by_contra hcon
  push_neg at hcon
  have line : ∀ (d : Direction) (n : Nat) (r c : Int), OnGrid (r, c) →
      (∃ u ∈ tiles, u.row = r ∧ u.col = c) → OnGrid (ahead d r c n) →
      ∃ u ∈ tiles, u.row = (ahead d r c n).1 ∧ u.col = (ahead d r c n).2 := by
    intro d n
    induction n with
    | zero =>
      intro r c _ hocc _
      simpa [ahead] using hocc
    | succ n ih =>
      intro r c h0 hocc h1
      have hn := onGrid_ahead_of_succ d r c n h0 h1
      obtain ⟨u, hu, hr, hc⟩ := ih r c h0 hocc hn
      rw [ahead_succ] at h1 ⊢
      rw [← hr, ← hc] at h1 ⊢
      exact hcon u hu d h1
  obtain ⟨t, ht⟩ := List.exists_mem_of_ne_nil _ hne
  obtain ⟨re, ce, h1, h2, h3, h4, hfree⟩ := he
  have htg := hg t ht
  -- along the column of `t` to the row of the empty cell
  have hrow : ∃ u ∈ tiles, u.row = re ∧ u.col = t.col := by
    rcases le_total t.row re with hle | hle
    · have := line .down (re - t.row).toNat t.row t.col htg ⟨t, ht, rfl, rfl⟩
        (by unfold OnGrid ahead; simp only [getVector]; omega)
      obtain ⟨u, hu, hr, hc⟩ := this
      refine ⟨u, hu, ?_, ?_⟩
      · rw [hr]; unfold ahead; simp only [getVector]; omega
      · rw [hc]; unfold ahead; simp only [getVector]; omega
    · have := line .up (t.row - re).toNat t.row t.col htg ⟨t, ht, rfl, rfl⟩
        (by unfold OnGrid ahead; simp only [getVector]; omega)
      obtain ⟨u, hu, hr, hc⟩ := this
      refine ⟨u, hu, ?_, ?_⟩
      · rw [hr]; unfold ahead; simp only [getVector]; omega
      · rw [hc]; unfold ahead; simp only [getVector]; omega
  have hcell : ∃ u ∈ tiles, u.row = re ∧ u.col = ce := by
    have hg2 : OnGrid (re, t.col) := ⟨h1, h2, htg.2.2.1, htg.2.2.2⟩
    rcases le_total t.col ce with hle | hle
    · have := line .right (ce - t.col).toNat re t.col hg2 hrow
        (by unfold OnGrid ahead; simp only [getVector]; omega)
      obtain ⟨u, hu, hr, hc⟩ := this
      refine ⟨u, hu, ?_, ?_⟩
      · rw [hr]; unfold ahead; simp only [getVector]; omega
      · rw [hc]; unfold ahead; simp only [getVector]; omega
    · have := line .left (t.col - ce).toNat re t.col hg2 hrow
        (by unfold OnGrid ahead; simp only [getVector]; omega)
      obtain ⟨u, hu, hr, hc⟩ := this
      refine ⟨u, hu, ?_, ?_⟩
      · rw [hr]; unfold ahead; simp only [getVector]; omega
      · rw [hc]; unfold ahead; simp only [getVector]; omega
  obtain ⟨u, hu, hr, hc⟩ := hcell
  exact hfree u hu ⟨hr, hc⟩

/-- Sixteen tiles in distinct cells of the grid leave no cell empty. -/
theorem not_hasEmptyCell_of_sixteen (tiles : List Tile) (hd : DistinctCells tiles)
    (hg : InGrid tiles) (hlen : 16 ≤ tiles.length) : ¬ HasEmptyCell tiles := by
  rintro ⟨r, c, h1, h2, h3, h4, hfree⟩
  have hp : (r, c) ∈ emptyCells [] := (mem_emptyCells [] (r, c)).2 ⟨⟨h1, h2, h3, h4⟩, by simp⟩
  have hsub : tiles.map cellOf ⊆ (emptyCells []).erase (r, c) := by
    intro p hp2
    obtain ⟨t, ht, rfl⟩ := List.mem_map.1 hp2
    rw [List.Nodup.mem_erase_iff emptyCells_nil_nodup]
    refine ⟨?_, (mem_emptyCells [] _).2 ⟨hg t ht, by simp⟩⟩
    intro he
    simp only [cellOf, Prod.mk.injEq] at he
    exact hfree t ht he
  have := (List.Nodup.subperm hd hsub).length_le
  rw [List.length_erase_of_mem hp, emptyCells_nil_length, List.length_map] at this
  omega

/-- The test of the game-over check holds exactly when no direction moves anything. -/
theorem gameOverTest_iff (tiles : List Tile) (hne : tiles ≠ []) (hd : DistinctCells tiles)
    (hg : InGrid tiles) :
    gameOverTest tiles = true ↔ ∀ d : Direction, (resolve d tiles).moved = false := by
  unfold gameOverTest
  simp only [Bool.and_eq_true, Bool.not_eq_true', decide_eq_false_iff_not, not_lt]
  have hcan := canMove_iff tiles hd hg
  constructor
  · rintro ⟨hlen, hno⟩ d
    apply resolve_of_blocked d tiles hd hg
    intro t ht
    by_cases hon : OnGrid (t.row + (getVector d).1, t.col + (getVector d).2)
    · right
      have hfull := not_hasEmptyCell_of_sixteen tiles hd hg hlen
      have hocc : ∃ u ∈ tiles, u.row = t.row + (getVector d).1 ∧
          u.col = t.col + (getVector d).2 := by
        by_contra hnone
        push_neg at hnone
        exact hfull ⟨_, _, hon.1, hon.2.1, hon.2.2.1, hon.2.2.2, fun u hu huc =>
          hnone u hu huc.1 huc.2⟩
      obtain ⟨u, hu, hr, hc⟩ := hocc
      refine ⟨u, hu, hr, hc, ?_⟩
      intro hv
      have hdir : d ∈ directions := by cases d <;> simp [directions]
      have := hcan.2 ⟨t, ht, u, hu, (adjacent_iff t u).2 ⟨d, hdir, hr, hc⟩, hv.symm⟩
      rw [hno] at this
      cases this
    · exact Or.inl hon
  · intro hall
    constructor
    · by_contra hlt
      have hempty := hasEmptyCell_of_length_lt tiles (by omega)
      obtain ⟨t, ht, d, hon, hfree⟩ := exists_tile_next_to_empty tiles hg hne hempty
      have := resolve_of_can_act d tiles hd hg t ht hon (Or.inl hfree)
      rw [hall d] at this
      cases this
    · by_contra hc
      have hc2 : canMove tiles = true := by simpa using hc
      obtain ⟨a, ha, b, hb, hadj, hval⟩ := hcan.1 hc2
      obtain ⟨d, -, hr, hcc⟩ := (adjacent_iff a b).1 hadj
      have hon : OnGrid (a.row + (getVector d).1, a.col + (getVector d).2) := by
        rw [← hr, ← hcc]
        exact hg b hb
      have := resolve_of_can_act d tiles hd hg a ha hon (Or.inr ⟨b, hb, hr, hcc, hval.symm⟩)
      rw [hall d] at this
      cases this

theorem reachable_gameOver_eq (rnd : Nat → Nat) (s : Session) (h : Reachable rnd s) :
    s.gameOver = gameOverTest s.tiles := by
  induction h with
  | start fuel s0 s hs =>
    unfold startGame at hs
    split at hs
    · cases hs
    · rename_i tiles idc dr heq
      simp only [Option.some.injEq] at hs
      subst hs
      obtain ⟨r1, c1, r2, c2, ht, -⟩ := getInitialTiles_spec rnd fuel 1 _ _ _ _ heq
      subst ht
      simp [gameOverTest]
  | step d s hr ih =>
    by_cases hgo : s.gameOver = true
    · have : move rnd d s = s := by simp [move, hgo]
      rw [this]; exact ih
    by_cases hm : (resolve d s.tiles).moved = true
    swap
    · have : move rnd d s = s := by simp [move, hm]
      rw [this]; exact ih
    have hgo2 : s.gameOver = false := by simpa using hgo
    rw [move_accepted rnd d s hgo2 hm]
    rfl

/-- C19: for a non-empty list of tiles in distinct cells of the grid, the test of the
game-over check of `move` (no empty cell, that is 16 tiles, and no two equal tiles in
cells that share an edge) holds if and only if the traversal reports `moved = false` for
all four directions. Hence in a session reached from a `startGame` by `move` calls,
`gameOver = false` implies that some direction is accepted (`moved = true`), and
`gameOver = true` implies that no direction moves anything. -/
theorem gameOver_iff_no_direction_moves :
    (∀ tiles : List Tile, tiles ≠ [] → DistinctCells tiles → InGrid tiles →
      (((!decide (tiles.length < 16) && !canMove tiles) = true ↔
          ∀ d : Direction, (resolve d tiles).moved = false) ∧
        ((tiles.length = 16 ∧
            ∀ a ∈ tiles, ∀ b ∈ tiles, Adjacent a b → a.value ≠ b.value) ↔
          ∀ d : Direction, (resolve d tiles).moved = false))) ∧
    ∀ (rnd : Nat → Nat) (s : Session), Reachable rnd s →
      (s.gameOver = false → ∃ d : Direction, (resolve d s.tiles).moved = true) ∧
      (s.gameOver = true → ∀ d : Direction, (resolve d s.tiles).moved = false) := by
  constructor
  · intro tiles hne hd hg
    have key := gameOverTest_iff tiles hne hd hg
    refine ⟨key, ?_⟩
    rw [← key]
    unfold gameOverTest
    simp only [Bool.and_eq_true, Bool.not_eq_true', decide_eq_false_iff_not, not_lt]
    have hle := length_le_sixteen tiles hd hg
    have hcan := canMove_iff tiles hd hg
    constructor
    · rintro ⟨hlen, hno⟩
      refine ⟨by omega, ?_⟩
      by_contra hc
      have hc2 : canMove tiles = true := by simpa using hc
      obtain ⟨a, ha, b, hb, hadj, hval⟩ := hcan.1 hc2
      exact hno a ha b hb hadj hval
    · rintro ⟨hlen, hno⟩
      refine ⟨by omega, ?_⟩
      intro a ha b hb hadj hval
      have := hcan.2 ⟨a, ha, b, hb, hadj, hval⟩
      rw [hno] at this
      cases this
  · intro rnd s hr
    have hi := sessionInv_of_reachable rnd s hr
    have hne : s.tiles ≠ [] := by
      intro he
      have := hi.two_le
      rw [he] at this
      simp at this
    have key := gameOverTest_iff s.tiles hne hi.cells hi.grid
    have heq := reachable_gameOver_eq rnd s hr
    constructor
    · intro hgo
      by_contra hcon
      push_neg at hcon
      have hall : ∀ d : Direction, (resolve d s.tiles).moved = false := by
        intro d
        simpa using hcon d
      rw [key.2 hall] at heq
      rw [heq] at hgo
      cases hgo
    · intro hgo
      apply key.1
      rw [← heq]
      exact hgo

theorem gameOver_iff_no_direction_moves_witness :
    row224 ≠ [] ∧ DistinctCells row224 ∧ InGrid row224 ∧
      ((!decide (row224.length < 16) && !canMove row224) = true ↔
        ∀ d : Direction, (resolve d row224).moved = false) :=
  ⟨by decide, by decide, by decide,
    (gameOver_iff_no_direction_moves.1 row224 (by decide) (by decide) (by decide)).1⟩

/-! ## Flags and the sum of the values through the traversal -/

theorem sum_modifyAt (g : Tile → Nat) (ts : List Tile) (i : Nat) (f : Tile → Tile) (t : Tile)
    (ht : ts[i]? = some t) :
    ((modifyAt ts i f).map g).sum + g t = (ts.map g).sum + g (f t) := by
  induction ts generalizing i with
  | nil => simp at ht
  | cons a ts ih =>
    cases i with
    | zero =>
      simp only [List.getElem?_cons_zero, Option.some.injEq] at ht
      subst ht
      simp only [modifyAt, List.getElem?_cons_zero, List.set_cons_zero, List.map_cons,
        List.sum_cons]
      omega
    | succ i =>
      simp only [List.getElem?_cons_succ] at ht
      have h1 := ih i ht
      have e : modifyAt (a :: ts) (i + 1) f = a :: modifyAt ts i f := by
        simp only [modifyAt, List.getElem?_cons_succ, ht, List.set_cons_succ]
      rw [e]
      simp only [List.map_cons, List.sum_cons]
      omega

/-- The state after a step that merges the tile `tile` (index `i`) into the tile `nt`
(index `j`), with or without a slide before. -/
theorem merge_step_effects (s : MoveState) (r c : Int) (i : Nat) (tile : Tile)
    (np cur : Int × Int) (j : Nat) (nt : Tile) (n : Nat)
    (ht : s.currentTiles[i]? = some tile) (hnt : s.currentTiles[j]? = some nt) (hij : i ≠ j)
    (s2 : MoveState)
    (he : s2 = if n = 0 then applyMerge s r c i tile np j
      else applySlide (applyMerge s r c i tile np j) r c i cur) :
    s2.merges = s.merges ++
        [{ absorbed := tile, target := nt,
           result := { nt with value := nt.value * 2, isMerged := true } }] ∧
      s2.mergedIds = tile.id :: s.mergedIds ∧
      s2.scoreToAdd = s.scoreToAdd + nt.value * 2 ∧
      s2.moved = true ∧
      (∃ r2 c2 : Int, ∀ k : Nat, s2.currentTiles[k]? =
        if k = i then some { tile with row := r2, col := c2 }
        else if k = j then some { nt with value := nt.value * 2, isMerged := true }
        else s.currentTiles[k]?) ∧
      totalValue s2.currentTiles = totalValue s.currentTiles + nt.value := by
  have hm := applyMerge_tiles s r c i tile np j nt ht hnt hij
  have hi1 : (modifyAt s.currentTiles j
      (fun t => { t with value := t.value * 2, isMerged := true }))[i]? = some tile := by
    rw [getElem?_modifyAt, if_neg hij]
    exact ht
  have htot : totalValue (applyMerge s r c i tile np j).currentTiles
      = totalValue s.currentTiles + nt.value := by
    simp only [applyMerge, hnt, totalValue]
    rw [map_modifyAt_eq _ _ _ _ (by intro t _; rfl)]
    have := sum_modifyAt (fun t => t.value) s.currentTiles j
      (fun t => { t with value := t.value * 2, isMerged := true }) nt hnt
    simp only at this
    omega
  by_cases hn : n = 0
  · rw [if_pos hn] at he
    subst he
    refine ⟨by simp only [applyMerge, hnt], by simp only [applyMerge, hnt],
      by simp only [applyMerge, hnt], by simp only [applyMerge, hnt], ⟨np.1, np.2, hm⟩, htot⟩
  · rw [if_neg hn] at he
    subst he
    refine ⟨by simp only [applySlide, applyMerge, hnt], by simp only [applySlide, applyMerge, hnt],
      by simp only [applySlide, applyMerge, hnt], rfl, ⟨cur.1, cur.2, ?_⟩, ?_⟩
    · intro k
      rw [applySlide_tiles _ r c i cur _ ((hm i).trans (if_pos rfl)), hm]
      by_cases hki : k = i
      · simp only [hki, if_true]
      · simp only [hki, if_false]
    · rw [← htot]
      simp only [applySlide, totalValue]
      rw [map_modifyAt_eq _ _ _ _ (by intro t _; rfl)]

theorem invMore_processCell {d : Direction} {ts : List Tile} {s : MoveState} (h : Inv d ts s)
    (hn : DistinctIds ts) (h2 : InvMore ts s) (r c : Int) (hg : OnGrid (r, c)) :
    InvMore ts (processCell d s r c) := by
  have hn2 : (s.currentTiles.map (fun t => t.id)).Nodup := by rw [h.ids]; exact hn
  have hinj : ∀ (a b : Nat) (ta tb : Tile), s.currentTiles[a]? = some ta →
      s.currentTiles[b]? = some tb → ta.id = tb.id → a = b := by
    intro a b ta tb ha hb hid
    have h1 : (s.currentTiles.map (fun t => t.id))[a]? = some ta.id := by
      rw [List.getElem?_map, ha]; rfl
    have h2 : (s.currentTiles.map (fun t => t.id))[b]? = some ta.id := by
      rw [List.getElem?_map, hb, hid]; rfl
    obtain ⟨hi, hi2⟩ := List.getElem?_eq_some.1 h1
    obtain ⟨hj, hj2⟩ := List.getElem?_eq_some.1 h2
    exact (List.Nodup.getElem_inj_iff hn2).1 (hi2.trans hj2.symm)
  rcases processCell_cases h r c hg with he | ⟨i, tile, n, -, hti, -, he⟩ |
    ⟨i, tile, n, np, j, nt, -, hti, -, -, hnt, hij, hm, he⟩
  · rw [he]; exact h2
  · rw [he]
    constructor
    · intro k t hk
      rw [applySlide_tiles s r c i _ tile hti] at hk
      split at hk
      · rename_i hki
        subst hki
        simp only [Option.some.injEq] at hk
        subst hk
        exact h2.merged_iff k tile hti
      · exact h2.merged_iff k t hk
    · have := h2.total
      simp only [applySlide, totalValue] at this ⊢
      rw [map_modifyAt_eq _ _ _ _ (by intro t _; rfl)]
      exact this
  · obtain ⟨hmer, -, hsc, -, ⟨r2, c2, htiles⟩, htot⟩ :=
      merge_step_effects s r c i tile np _ j nt n hti hnt hij _ he
    constructor
    · intro k t hk
      rw [htiles] at hk
      rw [hmer]
      split at hk
      · rename_i hki
        subst hki
        simp only [Option.some.injEq] at hk
        subst hk
        simp only
        rw [h2.merged_iff k tile hti]
        constructor
        · rintro ⟨e, he2, hid⟩
          exact ⟨e, List.mem_append_left _ he2, hid⟩
        · rintro ⟨e, he2, hid⟩
          rcases List.mem_append.1 he2 with he3 | he3
          · exact ⟨e, he3, hid⟩
          · exfalso
            simp only [List.mem_singleton] at he3
            subst he3
            exact hij (hinj k j tile nt hti hnt hid.symm)
      · split at hk
        · rename_i hkj
          subst hkj
          simp only [Option.some.injEq] at hk
          subst hk
          simp only [true_iff]
          exact ⟨_, List.mem_append_right _ (List.mem_singleton.2 rfl), rfl⟩
        · rename_i hkj
          rw [h2.merged_iff k t hk]
          constructor
          · rintro ⟨e, he2, hid⟩
            exact ⟨e, List.mem_append_left _ he2, hid⟩
          · rintro ⟨e, he2, hid⟩
            rcases List.mem_append.1 he2 with he3 | he3
            · exact ⟨e, he3, hid⟩
            · exfalso
              simp only [List.mem_singleton] at he3
              subst he3
              exact hkj (hinj k j t nt hk hnt hid.symm)
    · rw [htot, hsc]
      have := h2.total
      omega

theorem invMore_resolve (d : Direction) (tiles : List Tile) (hd : DistinctCells tiles)
    (hg : InGrid tiles) (hn : DistinctIds tiles) :
    InvMore (clearFlags tiles) (resolve d tiles) := by
  have hn2 : DistinctIds (clearFlags tiles) := by
    unfold DistinctIds clearFlags at *
    rw [List.map_map]
    exact hn
  have key := resolve_induction
    (fun s => Inv d (clearFlags tiles) s ∧ InvMore (clearFlags tiles) s) d tiles
    ⟨inv_initMove d tiles hd hg, ?_⟩
    (fun s r c hs hrc =>
      ⟨inv_processCell hs.1 r c hrc, invMore_processCell hs.1 hn2 hs.2 r c hrc⟩)
  · exact key.2
  · constructor
    · intro k t hk
      simp only [initMove] at hk
      rw [clearFlags_getElem?] at hk
      cases h0 : tiles[k]? with
      | none => rw [h0] at hk; cases hk
      | some u =>
        rw [h0] at hk
        simp only [Option.map_some', Option.some.injEq] at hk
        subst hk
        simp [initMove]
    · simp [initMove]

/-! ## An accepted move adds a tile -/

/-- On a board without an empty cell, a step sets `moved` only with a merge. -/
theorem full_processCell {d : Direction} {ts : List Tile} {s : MoveState} (h : Inv d ts s)
    (hfull : ¬ HasEmptyCell ts) (hp : s.moved = true → s.merges ≠ []) (r c : Int)
    (hg : OnGrid (r, c)) :
    (processCell d s r c).moved = true → (processCell d s r c).merges ≠ [] := by
  rcases processCell_outcome h r c hg with ⟨-, he⟩ |
    ⟨i, tile, n, -, hti, -, -, -, hfree, hcase⟩
  · rw [he]; exact hp
  · have hmoved : n ≠ 0 → s.moved = true := by
      intro hn
      by_contra hm
      have hm2 : s.moved = false := by simpa using hm
      obtain ⟨hnone, hon⟩ := hfree 1 (le_refl _) (by omega)
      have hocc : ∃ u ∈ ts, u.row = (ahead d r c 1).1 ∧ u.col = (ahead d r c 1).2 := by
        by_contra hno
        push_neg at hno
        exact hfull ⟨_, _, hon.1, hon.2.1, hon.2.2.1, hon.2.2.2, fun u hu huc =>
          hno u hu huc.1 huc.2⟩
      obtain ⟨u, hu, hr, hc⟩ := hocc
      obtain ⟨k, hk, -⟩ := board_of_not_moved h hm2 u hu
      rw [hr, hc, hnone] at hk
      cases hk
    rcases hcase with ⟨-, he⟩ | ⟨j, nt, -, -, hnt, hij, -, he⟩
    · rw [he]
      split
      · exact hp
      · rename_i hn
        intro _
        exact hp (hmoved hn)
    · obtain ⟨hmer, -⟩ := merge_step_effects s r c i tile _ _ j nt n hti hnt hij _ he
      intro _
      rw [hmer]
      simp

/-- After a traversal that reports `moved = true`, the tiles that are kept leave a cell of
the grid empty, so that `addRandomTile` adds a tile. -/
theorem hasEmptyCell_survivors (d : Direction) (tiles : List Tile) (hd : DistinctCells tiles)
    (hg : InGrid tiles) (hm : (resolve d tiles).moved = true) :
    HasEmptyCell (survivors d tiles) := by
  have hinv := inv_resolve d tiles hd hg
  have hle := length_le_sixteen tiles hd hg
  by_cases hmer : (resolve d tiles).mergedIds = []
  · apply hasEmptyCell_of_length_lt
    rw [survivors_eq_of_no_merge d tiles hmer]
    have hlen : (resolve d tiles).currentTiles.length = tiles.length := by
      have := congrArg List.length hinv.ids
      simpa [clearFlags] using this
    rw [hlen]
    by_contra hge
    have hfull := not_hasEmptyCell_of_sixteen (clearFlags tiles)
      (distinctCells_clearFlags tiles hd) (inGrid_clearFlags tiles hg)
      (by simp only [clearFlags, List.length_map]; omega)
    have key := resolve_induction
      (fun s => Inv d (clearFlags tiles) s ∧ (s.moved = true → s.merges ≠ [])) d tiles
      ⟨inv_initMove d tiles hd hg, by intro h; simp [initMove] at h⟩
      (fun s r c hs hrc =>
        ⟨inv_processCell hs.1 r c hrc, full_processCell hs.1 hfull hs.2 r c hrc⟩)
    have hne := key.2 hm
    apply hne
    have := hinv.merged_eq
    rw [hmer] at this
    simpa using this
  · apply hasEmptyCell_of_length_lt
    have := survivors_length_lt d tiles hd hg hmer
    omega

/-- The tiles after an accepted move: the tiles kept by the traversal followed by one new
tile. -/
theorem move_spawns (rnd : Nat → Nat) (d : Direction) (s : Session) (hgo : s.gameOver = false)
    (hm : (resolve d s.tiles).moved = true) (hd : DistinctCells s.tiles) (hg : InGrid s.tiles) :
    ∃ t : Tile, (move rnd d s).tiles = survivors d s.tiles ++ [t] ∧
      (move rnd d s).idCounter = s.idCounter + 1 ∧ t.id = s.idCounter ∧
      SpawnedOn (survivors d s.tiles) t := by
  obtain ⟨t, ht, hid, hsp⟩ := addRandomTile_spec rnd s.idCounter s.drawn _
    (hasEmptyCell_survivors d s.tiles hd hg hm)
  rw [move_accepted rnd d s hgo hm]
  exact ⟨t, by simp only [ht], by simp only [ht], hid, hsp⟩

/-! ## Flags, sums and counts after a move -/

theorem merge_targets_mem (d : Direction) (tiles : List Tile) (hd : DistinctCells tiles)
    (hg : InGrid tiles) :
    ∀ e ∈ (resolve d tiles).merges, e.target.id ∈ tiles.map (fun t => t.id) := by
  have key := resolve_induction
    (fun s => Inv d (clearFlags tiles) s ∧
      ∀ e ∈ s.merges, e.target.id ∈ (clearFlags tiles).map (fun t => t.id)) d tiles
    ⟨inv_initMove d tiles hd hg, by intro e he; simp [initMove] at he⟩
    (fun s r c hs hrc => ⟨inv_processCell hs.1 r c hrc, by
      rcases processCell_cases hs.1 r c hrc with he | ⟨i, tile, n, -, hti, -, he⟩ |
        ⟨i, tile, n, np, j, nt, -, hti, -, -, hnt, hij, -, he⟩
      · rw [he]; exact hs.2
      · rw [he]; exact hs.2
      · obtain ⟨hmer, -⟩ := merge_step_effects s r c i tile np _ j nt n hti hnt hij _ he
        rw [hmer]
        intro e he2
        rcases List.mem_append.1 he2 with he3 | he3
        · exact hs.2 e he3
        · simp only [List.mem_singleton] at he3
          subst he3
          rw [← hs.1.ids]
          exact List.mem_map.2 ⟨nt, List.getElem?_mem hnt, rfl⟩⟩)
  intro e he
  have := key.2 e he
  simpa [clearFlags] using this

/-- C14: for an accepted move (`gameOver = false`, `moved = true`) on tiles in distinct
cells of the grid with distinct ids below the id counter, whatever their flags are, the
resulting tiles are the tiles kept by the traversal followed by the spawned tile; the
spawned tile has `isNew = true`, `isMerged = false` and is not a tile run into by a
merge; every kept tile has `isNew = false`, and `isMerged = true` exactly when it is the
tile run into by a merge of this move. -/
theorem flags_after_move (rnd : Nat → Nat) (d : Direction) (s : Session)
    (hgo : s.gameOver = false) (hm : (resolve d s.tiles).moved = true)
    (hd : DistinctCells s.tiles) (hg : InGrid s.tiles) (hn : DistinctIds s.tiles)
    (hlt : ∀ t ∈ s.tiles, t.id < s.idCounter) :
    ∃ sp : Tile, (move rnd d s).tiles = survivors d s.tiles ++ [sp] ∧
      sp.isNew = true ∧ sp.isMerged = false ∧
      (∀ e ∈ (resolve d s.tiles).merges, e.target.id ≠ sp.id) ∧
      ∀ t ∈ survivors d s.tiles, t.isNew = false ∧
        (t.isMerged = true ↔ ∃ e ∈ (resolve d s.tiles).merges, e.target.id = t.id) := by
  obtain ⟨sp, hsp, -, hid, hspawn⟩ := move_spawns rnd d s hgo hm hd hg
  refine ⟨sp, hsp, hspawn.2.1, hspawn.2.2.1, ?_, ?_⟩
  · intro e he heq
    have hmem := merge_targets_mem d s.tiles hd hg e he
    obtain ⟨u, hu, hid2⟩ := List.mem_map.1 hmem
    have := hlt u hu
    rw [hid2, heq, hid] at this
    exact lt_irrefl _ this
  · intro t ht
    unfold survivors at ht
    have htm := (List.mem_filter.1 ht).1
    constructor
    · refine resolve_tilewise (fun t => t.isNew = false) (fun _ _ _ h => h) (fun _ h => h)
        d s.tiles hd hg ?_ t htm
      intro u hu
      simp only [clearFlags, List.mem_map] at hu
      obtain ⟨w, -, rfl⟩ := hu
      rfl
    · obtain ⟨k, hk⟩ := List.mem_iff_getElem?.1 htm
      exact (invMore_resolve d s.tiles hd hg hn).merged_iff k t hk

theorem flags_after_move_witness :
    session224.gameOver = false ∧ (resolve .left session224.tiles).moved = true ∧
      DistinctCells session224.tiles ∧ InGrid session224.tiles ∧
      DistinctIds session224.tiles ∧ (∀ t ∈ session224.tiles, t.id < session224.idCounter) ∧
      ∃ sp : Tile,
        (move quarterStream .left session224).tiles = survivors .left session224.tiles ++ [sp] ∧
        sp.isNew = true ∧ sp.isMerged = false ∧
        (∀ e ∈ (resolve .left session224.tiles).merges, e.target.id ≠ sp.id) ∧
        ∀ t ∈ survivors .left session224.tiles, t.isNew = false ∧
          (t.isMerged = true ↔
            ∃ e ∈ (resolve .left session224.tiles).merges, e.target.id = t.id) :=
  ⟨by decide, by decide, by decide, by decide, by decide, by decide,
    flags_after_move quarterStream .left session224 (by decide) (by decide) (by decide)
      (by decide) (by decide) (by decide)⟩

theorem total_split (ids : List Nat) (tiles : List Tile) :
    2 * totalValue tiles
      = removedScore ids tiles
        + 2 * totalValue (tiles.filter (fun t => decide (t.id ∉ ids))) := by
  unfold totalValue removedScore
  induction tiles with
  | nil => rfl
  | cons t tiles ih =>
    by_cases ht : t.id ∈ ids
    · simp only [List.map_cons, List.sum_cons, List.filter_cons, ht, not_true_eq_false,
        decide_False, if_true] at ih ⊢
      simp only [Bool.false_eq_true, if_false]
      omega
    · simp only [List.map_cons, List.sum_cons, List.filter_cons, ht, not_false_eq_true,
        decide_True, if_true, if_false] at ih ⊢
      omega

theorem totalValue_clearFlags (tiles : List Tile) :
    totalValue (clearFlags tiles) = totalValue tiles := by
  unfold totalValue clearFlags
  rw [List.map_map]
  rfl

theorem survivors_length_add (d : Direction) (tiles : List Tile) (hd : DistinctCells tiles)
    (hg : InGrid tiles) (hn : DistinctIds tiles) :
    (survivors d tiles).length + (resolve d tiles).merges.length = tiles.length := by
  have h := inv_resolve d tiles hd hg
  have hids : (resolve d tiles).currentTiles.map (fun t => t.id) = tiles.map (fun t => t.id) := by
    rw [h.ids]; simp [clearFlags]
  have hlen : (resolve d tiles).currentTiles.length = tiles.length := by
    have := congrArg List.length hids
    simpa using this
  have hml : (resolve d tiles).merges.length = (resolve d tiles).mergedIds.length := by
    rw [h.merged_eq]; simp
  have hsplit := List.length_eq_length_filter_add (l := (resolve d tiles).currentTiles)
    (fun t => decide (t.id ∉ (resolve d tiles).mergedIds))
  have hrem : ((resolve d tiles).currentTiles.filter
      (fun t => !decide (t.id ∉ (resolve d tiles).mergedIds))).length
      = (resolve d tiles).mergedIds.length := by
    have e : ((resolve d tiles).currentTiles.filter
        (fun t => !decide (t.id ∉ (resolve d tiles).mergedIds))).length
        = ((tiles.map (fun t => t.id)).filter
            (fun m => decide (m ∈ (resolve d tiles).mergedIds))).length := by
      rw [← hids, List.filter_map, List.length_map]
      congr 2
      funext t
      simp
    rw [e]
    apply List.Perm.length_eq
    rw [List.perm_ext_iff_of_nodup (List.Nodup.filter _ hn) h.merged_nodup]
    intro a
    simp only [List.mem_filter, decide_eq_true_eq]
    constructor
    · exact fun ha => ha.2
    · intro ha
      refine ⟨?_, ha⟩
      have := h.merged_sub a ha
      simpa [clearFlags] using this
  unfold survivors
  omega

/-- C20: for tiles in distinct cells of the grid with distinct ids, and every direction,
the sum of the values of the tiles kept by the traversal equals the sum of the values of
the input tiles, and the number of kept tiles is the number of input tiles minus the
number of merges; so an accepted move adds exactly one tile, of value 2 or 4, and raises
the sum of the values by the value of that tile. -/
theorem move_keeps_total (d : Direction) (tiles : List Tile) (hd : DistinctCells tiles)
    (hg : InGrid tiles) (hn : DistinctIds tiles) :
    totalValue (survivors d tiles) = totalValue tiles ∧
      (survivors d tiles).length + (resolve d tiles).merges.length = tiles.length ∧
      ∀ (rnd : Nat → Nat) (s : Session), s.tiles = tiles → s.gameOver = false →
        (resolve d tiles).moved = true →
        ∃ sp : Tile, (move rnd d s).tiles = survivors d tiles ++ [sp] ∧
          (sp.value = 2 ∨ sp.value = 4) ∧
          totalValue (move rnd d s).tiles = totalValue tiles + sp.value := by
  have htot : totalValue (survivors d tiles) = totalValue tiles := by
    have h1 := (invMore_resolve d tiles hd hg hn).total
    have h2 := (invIds_resolve d tiles hd hg hn).removed
    have h3 := total_split (resolve d tiles).mergedIds (resolve d tiles).currentTiles
    rw [totalValue_clearFlags] at h1
    unfold survivors
    omega
  refine ⟨htot, survivors_length_add d tiles hd hg hn, ?_⟩
  intro rnd s hs hgo hm
  subst hs
  obtain ⟨sp, hsp, -, -, hspawn⟩ := move_spawns rnd d s hgo hm hd hg
  refine ⟨sp, hsp, hspawn.1, ?_⟩
  rw [hsp, ← htot]
  simp [totalValue]

theorem move_keeps_total_witness :
    DistinctCells row224 ∧ InGrid row224 ∧ DistinctIds row224 ∧
      totalValue (survivors .left row224) = totalValue row224 ∧
      (survivors .left row224).length + (resolve .left row224).merges.length = row224.length :=
  have h := move_keeps_total .left row224 (by decide) (by decide) (by decide)
  ⟨by decide, by decide, by decide, h.1, h.2.1⟩

end Game
